import Mathlib

/-!
Verification of the object-storage core of `libwyag.py`.

The development is a shallow embedding of the Python source:

* byte strings (`bytes`) are `List Nat`, Python `str` is `String`;
* `bytes.find`, slicing and indexing are modelled by `pyFind`, `pySlice` and
  `pyIndex`, which reproduce the Python conventions (`find` returns `-1` on
  failure, negative indices count from the end, slices clamp);
* functions that can raise are `Option`- or `Except`-valued; exhausting the
  explicit fuel of a loop models non-termination or stack exhaustion and is
  reported as failure;
* the object database (`.git/objects`) is an association list from the
  `(sha[0:2], sha[2:])` path split to the stored record; the zlib layer
  (`zlib.compress` on write, `zlib.decompress` on read) is a lossless external
  codec applied at the file boundary, so the model stores the record that every
  code path observes after decompression.
-/

/-! ## Bytes and Python primitive operations -/

abbrev Bytes := List Nat

/-- Byte values of an ASCII string literal. -/
def strBytes (s : String) : Bytes := s.data.map Char.toNat

/-- Index of the first occurrence of byte `b`, if any. -/
def byteIdx (b : Nat) : Bytes → Option Nat
  | [] => none
  | x :: xs => if x = b then some 0 else (byteIdx b xs).map (· + 1)

/-- Python `raw.find(bytes([b]), start)`: a negative `start` counts from the end
and is clamped at 0; the result is the absolute index of the first occurrence
at or after `start`, or `-1` when there is none. -/
def pyFind (l : Bytes) (b : Nat) (start : Int) : Int :=
  let s : Nat := (if start < 0 then start + l.length else start).toNat
  match byteIdx b (l.drop s) with
  | some i => ((s + i : Nat) : Int)
  | none => -1

/-- Normalisation of one slice bound: negative bounds count from the end,
and bounds are clamped to `[0, len]`. -/
def pyBound (len : Nat) (i : Int) : Nat :=
  if i < 0 then (i + len).toNat else min i.toNat len

/-- Python slice `l[a:b]`. -/
def pySlice (l : Bytes) (a b : Int) : Bytes :=
  ((l.drop (pyBound l.length a)).take (pyBound l.length b - pyBound l.length a))

/-- Python indexing `l[i]`: negative indices count from the end; out-of-range
access raises `IndexError`, modelled by `none`. -/
def pyIndex (l : Bytes) (i : Int) : Option Nat :=
  let j := if i < 0 then i + l.length else i
  if j < 0 then none else l[j.toNat]?

/-- Python whitespace bytes (as stripped by `int()` and `str.strip()`). -/
def isPySpace (c : Nat) : Bool := c = 32 || c = 9 || c = 10 || c = 13 || c = 11 || c = 12

/-- Python `s.strip()` on a string. -/
def pyStripStr (s : String) : String :=
  String.mk (((s.data.dropWhile (fun c => isPySpace c.toNat)).reverse.dropWhile
    (fun c => isPySpace c.toNat)).reverse)

/-- Python `s.lower()` on an ASCII string. -/
def pyLowerStr (s : String) : String :=
  String.mk (s.data.map (fun c =>
    if 65 ≤ c.toNat ∧ c.toNat ≤ 90 then Char.ofNat (c.toNat + 32) else c))

/-- Value of one decimal digit byte. -/
def decDigitVal (c : Nat) : Option Nat := if 48 ≤ c ∧ c ≤ 57 then some (c - 48) else none

/-- Value of a non-empty all-digit byte string. -/
def decDigitsVal (l : Bytes) : Option Nat :=
  if l = [] then none
  else l.foldl (fun acc c => match acc, decDigitVal c with
    | some a, some v => some (a * 10 + v)
    | _, _ => none) (some 0)

/-- Python `int(bs.decode("ascii"))`: fails unless every byte is ASCII;
whitespace around the number is stripped; an optional sign is followed by
decimal digits (digit-group underscores never occur in the data of this program). -/
def pyIntDec (b : Bytes) : Option Int :=
  if b.all (· < 128) then
    match (b.dropWhile isPySpace).reverse.dropWhile isPySpace |>.reverse with
    | 45 :: rest => (decDigitsVal rest).map (fun n => -(n : Int))
    | 43 :: rest => (decDigitsVal rest).map (fun n => (n : Int))
    | t => (decDigitsVal t).map (fun n => (n : Int))
  else none

/-- Python `bs.decode("ascii")`: fails unless every byte is below 128. -/
def bytesAscii (b : Bytes) : Option String :=
  if b.all (· < 128) then some (String.mk (b.map Char.ofNat)) else none

/-- Lowercase hexadecimal digit character for a value below 16. -/
def hexDigitChar (d : Nat) : Char :=
  Char.ofNat (if d < 10 then 48 + d else 87 + d)

/-- Hexadecimal digits of `n`, most significant first, no leading zeros
(`[0]` digit for `n = 0`); the first argument is fuel, `n` itself suffices. -/
def hexDigitsAux : Nat → Nat → List Char
  | 0, n => [hexDigitChar (n % 16)]
  | f+1, n => if n < 16 then [hexDigitChar n] else hexDigitsAux f (n / 16) ++ [hexDigitChar (n % 16)]

/-- Python `hex(n)[2:]` for a nonnegative integer: lowercase hexadecimal
digits without leading zeros; `hex(0)[2:] = "0"`. -/
def pyHex (n : Nat) : String := String.mk (hexDigitsAux n n)

/-- Value of one hexadecimal digit character (either case). -/
def hexCharVal (c : Char) : Option Nat :=
  if 48 ≤ c.toNat ∧ c.toNat ≤ 57 then some (c.toNat - 48)
  else if 97 ≤ c.toNat ∧ c.toNat ≤ 102 then some (c.toNat - 87)
  else if 65 ≤ c.toNat ∧ c.toNat ≤ 70 then some (c.toNat - 55)
  else none

/-- True when `c` is a hexadecimal digit (pattern class `[0-9A-Fa-f]`). -/
def isHexChar (c : Char) : Bool := (hexCharVal c).isSome

/-- Python `int(s, 16)` on a plain string of hexadecimal digits: fails on the
empty string or on a non-digit character.  (Python additionally accepts signs,
an `0x` marker and underscores; no string fed to `int(_, 16)` by this program
contains them: the `sha` fields are outputs of `hex(_)[2:]`.) -/
def pyIntHex (s : String) : Option Nat :=
  if s.data = [] then none
  else s.data.foldl (fun acc c => match acc, hexCharVal c with
    | some a, some v => some (a * 16 + v)
    | _, _ => none) (some 0)

/-- Interpretation of a hexadecimal digit-character list, most significant
first, onto the accumulator `a`; `none` at the first non-digit. -/
def hexDigitsVal (a : Nat) : List Char → Option Nat
  | [] => some a
  | c :: cs =>
      match hexCharVal c with
      | some v => hexDigitsVal (a * 16 + v) cs
      | none => none

/-- Big-endian bytes of `v`, fixed width `k` (`int.to_bytes(k, "big")` after
the range check). -/
def natBytesBE : Nat → Nat → Bytes
  | 0, _ => []
  | k+1, v => natBytesBE k (v / 256) ++ [v % 256]

/-- Python `int.from_bytes(l, "big")`. -/
def bytesToNat (l : Bytes) : Nat := l.foldl (fun a b => a * 256 + b) 0

/-- Python `n.to_bytes(20, byteorder="big")`: raises `OverflowError` when `n`
needs more than 20 bytes. -/
def toBytes20 (n : Nat) : Option Bytes :=
  if n < 256 ^ 20 then some (natBytesBE 20 n) else none

/-- ASCII decimal digits of `n` (`str(n).encode()`); fuel-based, `n` suffices. -/
def decDigitsAux : Nat → Nat → Bytes
  | 0, n => [48 + n % 10]
  | f+1, n => if n < 10 then [48 + n] else decDigitsAux f (n / 10) ++ [48 + n % 10]

/-- Python `str(n).encode()` for a natural number. -/
def asciiDecimal (n : Nat) : Bytes := decDigitsAux n n

/-! ## SHA-1 (`hashlib.sha1(...).hexdigest()`) -/

/-- Left rotation of a 32-bit word. -/
def rotl (s x : Nat) : Nat := ((x <<< s) ||| (x >>> (32 - s))) &&& 0xFFFFFFFF

/-- Number of zero bytes in the SHA-1 padding of a message of length `l`. -/
def sha1zeros (l : Nat) : Nat := (119 - (l % 64)) % 64

/-- SHA-1 padding: `0x80`, zeros to 56 mod 64, then the bit length, big-endian
in 8 bytes. -/
def sha1pad (msg : Bytes) : Bytes :=
  msg ++ [128] ++ List.replicate (sha1zeros msg.length) 0 ++ natBytesBE 8 (msg.length * 8)

/-- Big-endian 32-bit words of a block. -/
def toWords : Bytes → List Nat
  | b0 :: b1 :: b2 :: b3 :: rest => (((b0 * 256 + b1) * 256 + b2) * 256 + b3) :: toWords rest
  | _ => []

/-- Message-schedule extension: the accumulator keeps the words most recent
first, so `w[i-3]`, `w[i-8]`, `w[i-14]`, `w[i-16]` are at indices 2, 7, 13, 15. -/
def extendLoop : Nat → List Nat → List Nat
  | 0, ws => ws
  | k+1, ws =>
      extendLoop k
        (rotl 1 ((ws.getD 2 0) ^^^ (ws.getD 7 0) ^^^ (ws.getD 13 0) ^^^ (ws.getD 15 0)) :: ws)

/-- The 80-word message schedule of one block. -/
def sha1schedule (block : Bytes) : List Nat :=
  (extendLoop 64 (toWords block).reverse).reverse

/-- SHA-1 round function. -/
def sha1f (i b c d : Nat) : Nat :=
  if i < 20 then (b &&& c) ||| ((b ^^^ 0xFFFFFFFF) &&& d)
  else if i < 40 then b ^^^ c ^^^ d
  else if i < 60 then (b &&& c) ||| (b &&& d) ||| (c &&& d)
  else b ^^^ c ^^^ d

/-- SHA-1 round constants. -/
def sha1k (i : Nat) : Nat :=
  if i < 20 then 0x5A827999 else if i < 40 then 0x6ED9EBA1
  else if i < 60 then 0x8F1BBCDC else 0xCA62C1D6

/-- The 80 compression rounds over the schedule. -/
def sha1rounds : Nat → List Nat → Nat × Nat × Nat × Nat × Nat → Nat × Nat × Nat × Nat × Nat
  | _, [], st => st
  | i, w :: ws, (a, b, c, d, e) =>
      sha1rounds (i+1) ws
        (((rotl 5 a) + sha1f i b c d + e + sha1k i + w) % 4294967296, a, rotl 30 b, c, d)

/-- Process one 64-byte block. -/
def sha1block (h : Nat × Nat × Nat × Nat × Nat) (block : Bytes) :
    Nat × Nat × Nat × Nat × Nat :=
  match h, sha1rounds 0 (sha1schedule block) h with
  | (h0, h1, h2, h3, h4), (a, b, c, d, e) =>
      ((h0 + a) % 4294967296, (h1 + b) % 4294967296, (h2 + c) % 4294967296,
       (h3 + d) % 4294967296, (h4 + e) % 4294967296)

/-- Split into 64-byte blocks (fuel-based; any fuel above `len/64` suffices). -/
def chunks64 : Nat → Bytes → List Bytes
  | 0, _ => []
  | f+1, l => if l.isEmpty then [] else l.take 64 :: chunks64 f (l.drop 64)

/-- SHA-1 state after absorbing the whole padded message. -/
def sha1state (msg : Bytes) : Nat × Nat × Nat × Nat × Nat :=
  (chunks64 (msg.length + 65) (sha1pad msg)).foldl sha1block
    (0x67452301, 0xEFCDAB89, 0x98BADCFE, 0x10325476, 0xC3D2E1F0)

/-- Eight zero-padded lowercase hexadecimal characters of a 32-bit word. -/
def wordHex8 (w : Nat) : List Char :=
  (List.range 8).map (fun i => hexDigitChar ((w >>> ((7 - i) * 4)) &&& 15))

/-- Python `hashlib.sha1(msg).hexdigest()`: the 40-character lowercase
hexadecimal SHA-1 digest. -/
def sha1Hex (msg : Bytes) : String :=
  match sha1state msg with
  | (a, b, c, d, e) =>
      String.mk (wordHex8 a ++ wordHex8 b ++ wordHex8 c ++ wordHex8 d ++ wordHex8 e)

/-! ## KVLM: key-value list with message (`kvlm_parse` / `kvlm_serialize`)

A commit/tag dictionary is an insertion-ordered association list; a value is
either a single byte string or a list of byte strings, exactly the duck-typed
"scalar or list" representation of the source. -/

inductive KvlmVal where
  | one (v : Bytes)
  | many (vs : List Bytes)
deriving DecidableEq, Repr

abbrev KvlmDict := List (Bytes × KvlmVal)

/-- Lookup in insertion order (`dct[k]`, `k in dct`). -/
def dctLookup (d : KvlmDict) (k : Bytes) : Option KvlmVal :=
  match d with
  | [] => none
  | (k2, v) :: rest => if k2 = k then some v else dctLookup rest k

/-- Python dictionary assignment `dct[k] = v`: replaces the value in place when
the key exists (keeping its position), appends at the end otherwise. -/
def dctSet (d : KvlmDict) (k : Bytes) (v : KvlmVal) : KvlmDict :=
  match d with
  | [] => [(k, v)]
  | (k2, v2) :: rest => if k2 = k then (k, v) :: rest else (k2, v2) :: dctSet rest k v

/-- The accumulating update of `kvlm_parse` (libwyag.py lines 459-465): a
repeated key turns its scalar value into a two-element list, a further repeat
appends; a new key is appended at the end with a scalar value. -/
def dctInsert (d : KvlmDict) (k : Bytes) (v : Bytes) : KvlmDict :=
  match dctLookup d k with
  | some (.one w) => dctSet d k (.many [w, v])
  | some (.many ws) => dctSet d k (.many (ws ++ [v]))
  | none => d ++ [(k, .one v)]

/-- Models `value.replace` with needle and replacement both the newline byte at libwyag.py line 457 and the
identical call at line 481: `bytes.replace` whose needle equals its
replacement returns the input unchanged, so both calls are the identity on
byte strings (the continuation space is NOT stripped on parse, and no space
is inserted on serialize). -/
def replaceNlNl (b : Bytes) : Bytes := b

/-- The `while True` loop of `kvlm_parse` (libwyag.py lines 450-454): starting
from `e`, repeatedly find the next newline; stop at the first newline whose
following byte is not a space.  `none` models `IndexError` on `raw[end+1]`,
or exhaustion of the fuel (the loop can run forever on malformed input when
`find` keeps returning `-1`). -/
def kvlmFindEnd (raw : Bytes) : Nat → Int → Option Int
  | 0, _ => none
  | f+1, e =>
      let e2 := pyFind raw 10 (e + 1)
      match pyIndex raw (e2 + 1) with
      | none => none
      | some c => if c ≠ 32 then some e2 else kvlmFindEnd raw f e2

/-- Recursive body of `kvlm_parse` (libwyag.py lines 429-467) with explicit
fuel for the recursion depth.  The base case (blank line) requires
`nl = start` (the `assert`); the remainder of the input becomes the message
under the empty-bytes pseudo-key by plain dictionary assignment. -/
def kvlmParseGo (raw : Bytes) : Nat → Int → KvlmDict → Option KvlmDict
  | 0, _, _ => none
  | f+1, start, dct =>
      let spc := pyFind raw 32 start
      let nl := pyFind raw 10 start
      if spc < 0 ∨ nl < spc then
        if nl = start then
          some (dctSet dct [] (KvlmVal.one (pySlice raw (start + 1) raw.length)))
        else none
      else
        let key := pySlice raw start spc
        match kvlmFindEnd raw (2 * raw.length + 4) start with
        | none => none
        | some e =>
            let value := replaceNlNl (pySlice raw (spc + 1) e)
            kvlmParseGo raw f (e + 1) (dctInsert dct key value)

/-- `kvlm_parse(raw)`: parse from position 0 into a fresh ordered dictionary.
A successful Python run makes at most one recursive call per header line, so
`raw.length + 1` fuel is exact for every terminating execution; `none` covers
every raising or diverging execution. -/
def kvlm_parse (raw : Bytes) : Option KvlmDict :=
  kvlmParseGo raw (raw.length + 1) 0 []

/-- Header lines emitted by `kvlm_serialize` (libwyag.py lines 473-481): keys
in insertion order, the empty-bytes message pseudo-key skipped, a scalar value
treated as a one-element list, one `key SP value NL` line per element. -/
def kvlmHeaderBytes (d : KvlmDict) : Bytes :=
  (d.map (fun kv =>
    if kv.1 = [] then []
    else
      match kv.2 with
      | .one v => kv.1 ++ 32 :: (replaceNlNl v ++ [10])
      | .many vs => (vs.map (fun v => kv.1 ++ 32 :: (replaceNlNl v ++ [10]))).flatten)).flatten

/-- `kvlm_serialize(kvlm)` (libwyag.py lines 470-485): the header lines, a
blank line, then the message stored under the empty-bytes pseudo-key.  `none` models the `KeyError` when
the pseudo-key is absent and the `TypeError` of adding a list to bytes when its value
is a list. -/
def kvlm_serialize (d : KvlmDict) : Option Bytes :=
  match dctLookup d [] with
  | some (.one m) => some (kvlmHeaderBytes d ++ 10 :: m)
  | _ => none

/-! ## Tree objects (`tree_parse_one` / `tree_parse` / `tree_serialize`) -/

structure GitTreeLeaf where
  mode : Bytes
  path : Bytes
  sha : String
deriving DecidableEq, Repr

/-- `tree_parse_one(raw, start)` (libwyag.py lines 499-511): mode up to the
first space (asserted to be 5 or 6 bytes), path up to the first `NUL`, then 20
raw sha bytes converted by `hex(int.from_bytes(...))[2:]` — without zero
padding.  Returns the next position and the leaf; `none` is the failed
assert. -/
def tree_parse_one (raw : Bytes) (start : Int) : Option (Int × GitTreeLeaf) :=
  let x := pyFind raw 32 start
  if x - start = 5 ∨ x - start = 6 then
    let y := pyFind raw 0 x
    some (y + 21,
      { mode := pySlice raw start x
        path := pySlice raw (x + 1) y
        sha := pyHex (bytesToNat (pySlice raw (y + 1) (y + 21))) })
  else none

/-- The `while pos < max` loop of `tree_parse` (libwyag.py lines 488-496),
fuel-based; every terminating execution fits in `raw.length + 1` steps. -/
def treeParseGo (raw : Bytes) : Nat → Int → List GitTreeLeaf → Option (List GitTreeLeaf)
  | 0, _, _ => none
  | f+1, pos, acc =>
      if pos < (raw.length : Int) then
        match tree_parse_one raw pos with
        | none => none
        | some (pos2, leaf) => treeParseGo raw f pos2 (acc ++ [leaf])
      else some acc

/-- `tree_parse(raw)`. -/
def tree_parse (raw : Bytes) : Option (List GitTreeLeaf) :=
  treeParseGo raw (raw.length + 1) 0 []

/-- `tree_serialize(obj)` (libwyag.py lines 514-523): for each entry, mode,
space, path, `NUL`, then `int(i.sha, 16).to_bytes(20, byteorder="big")`.
`none` models `ValueError` from `int` or `OverflowError` from `to_bytes`. -/
def tree_serialize (items : List GitTreeLeaf) : Option Bytes :=
  items.foldl (fun acc i =>
    match acc with
    | none => none
    | some ret =>
        match pyIntHex i.sha with
        | none => none
        | some n =>
            match toBytes20 n with
            | none => none
            | some shaBytes => some (ret ++ i.mode ++ 32 :: (i.path ++ 0 :: shaBytes)))
    (some [])

/-! ## Objects, store, read and write -/

/-- Python exceptions surfaced by the embedded code paths. -/
inductive PyErr where
  /-- Reading a missing attribute (`AttributeError`). -/
  | attributeError (attr : String)
  /-- `open` on a path whose object file does not exist. -/
  | fileNotFound (sha : String)
  /-- `object_read`: declared length differs from the payload length. -/
  | malformedObject (sha : String)
  /-- `object_read`: type tag outside the four recognized kinds. -/
  | unknownType (sha : String)
  /-- A failing deserialisation (bad header int, failed `assert`, `KeyError`,
  `TypeError`, non-ASCII decode) or a diverging loop. -/
  | deserializeError
  /-- `object_find`: `object_resolve` produced no candidate. -/
  | notFound (name : String)
  /-- `object_find`: `object_resolve` produced several candidates. -/
  | ambiguous (name : String) (cands : List String)
deriving DecidableEq, Repr

/-- The in-memory state of a deserialised object: `GitBlob` keeps the raw
bytes, `GitCommit`/`GitTag` the parsed KVLM dictionary, `GitTree` the entry
list. -/
inductive GitObj where
  | blob (blobdata : Bytes)
  | commit (kvlm : KvlmDict)
  | tag (kvlm : KvlmDict)
  | tree (items : List GitTreeLeaf)
deriving DecidableEq, Repr

/-- The class attribute `fmt` of each `GitObject` subclass. -/
def GitObj.fmt : GitObj → Bytes
  | .blob _ => strBytes "blob"
  | .commit _ => strBytes "commit"
  | .tag _ => strBytes "tag"
  | .tree _ => strBytes "tree"

/-- `serialize()` of each subclass.  `GitBlob.serialize` returns `blobdata`
unchanged.  `GitCommit.serialize` (libwyag.py line 243) evaluates
`kvlm_serialize(self.kvml)`: `deserialize` (line 240) stores the parsed
dictionary in the attribute `kvlm`, and no statement in the program ever
assigns an attribute named `kvml`, so the lookup raises `AttributeError` on
every `GitCommit` instance — and, by inheritance, on every `GitTag`.
`GitTree.serialize` delegates to `tree_serialize`. -/
def GitObj.serializeBytes : GitObj → Except PyErr Bytes
  | .blob d => .ok d
  | .commit _ => .error (.attributeError "kvml")
  | .tag _ => .error (.attributeError "kvml")
  | .tree items =>
      match tree_serialize items with
      | some b => .ok b
      | none => .error .deserializeError

/-- The object database: contents of `.git/objects`, keyed by the
`(sha[0:2], sha[2:])` path split, holding the stored record (see the header
comment for the treatment of zlib). -/
abbrev Store := List ((String × String) × Bytes)

/-- Read the file at `objects/<k.1>/<k.2>`. -/
def storeRead (st : Store) (k : String × String) : Option Bytes :=
  match st with
  | [] => none
  | (k2, v) :: rest => if k2 = k then some v else storeRead rest k

/-- `object_read(repo, sha)` (libwyag.py lines 308-344): locate the file by
the 2/38 path split, parse `kind SP ascii-length NUL payload`, check the
declared length, dispatch on the type tag and deserialise. -/
def object_read (st : Store) (sha : String) : Except PyErr GitObj :=
  match storeRead st (sha.take 2, sha.drop 2) with
  | none => .error (.fileNotFound sha)
  | some raw =>
      let x := pyFind raw 32 0
      let y := pyFind raw 0 x
      match pyIntDec (pySlice raw x y) with
      | none => .error .deserializeError
      | some size =>
          if size ≠ (raw.length : Int) - y - 1 then .error (.malformedObject sha)
          else
            let fmt := pySlice raw 0 x
            let payload := pySlice raw (y + 1) raw.length
            if fmt = strBytes "commit" then
              match kvlm_parse payload with
              | some d => .ok (.commit d)
              | none => .error .deserializeError
            else if fmt = strBytes "tree" then
              match tree_parse payload with
              | some items => .ok (.tree items)
              | none => .error .deserializeError
            else if fmt = strBytes "tag" then
              match kvlm_parse payload with
              | some d => .ok (.tag d)
              | none => .error .deserializeError
            else if fmt = strBytes "blob" then .ok (.blob payload)
            else .error (.unknownType sha)

/-- `object_write(obj, actually_write)` (libwyag.py lines 347-359): build the
record `fmt SP ascii-decimal-length NUL data`, hash it with SHA-1, store it at
the 2/38 split path when `actually_write`, and return the hash in any case
(together with the possibly-updated store). -/
def object_write (st : Store) (obj : GitObj) (actuallyWrite : Bool := true) :
    Except PyErr (String × Store) :=
  match obj.serializeBytes with
  | .error e => .error e
  | .ok data =>
      let result := obj.fmt ++ 32 :: (asciiDecimal data.length ++ 0 :: data)
      let sha := sha1Hex result
      if actuallyWrite then .ok (sha, ((sha.take 2, sha.drop 2), result) :: st)
      else .ok (sha, st)

/-! ## Name resolution (`object_resolve` / `object_find`) -/

/-- The repository context consumed by `object_resolve`: the hash that
`ref_resolve(repo, "HEAD")` returns, and the listing of each existing
two-character bucket of `.git/objects` (`repo_dir` yields `None` for a missing
bucket; `os.listdir` order is the stored order). -/
structure Repo where
  headSha : String
  objectsDir : List (String × List String)

/-- `repo_dir(repo, "objects", pre2)` followed by `os.listdir`. -/
def bucketLookup : List (String × List String) → String → Option (List String)
  | [], _ => none
  | (k, fs) :: rest, p => if k = p then some fs else bucketLookup rest p

/-- The anchored pattern `^[0-9A-Fa-f]{1,16}$` of libwyag.py line 372 matched
against the whole name: between 1 and 16 characters, all hexadecimal digits.
(Note the upper bound in the source is 16, not 40.) -/
def hashREMatch (s : String) : Bool :=
  decide (1 ≤ s.length) && decide (s.length ≤ 16) && s.data.all isHexChar

/-- `object_resolve(repo, name)` (libwyag.py lines 362-393): `None` for a
blank name; `[ref_resolve(repo, "HEAD")]` for the literal `HEAD`; under a
regex match, a 40-character name is returned verbatim lower-cased, and a name
of length at least 4 is expanded by scanning the two-character bucket for
file names extending the remainder; every other path returns the accumulated
candidate list (empty unless the bucket scan added to it). -/
def object_resolve (repo : Repo) (name : String) : Option (List String) :=
  if pyStripStr name = "" then none
  else if name = "HEAD" then some [repo.headSha]
  else if hashREMatch name then
    if name.length = 40 then some [pyLowerStr name]
    else if 4 ≤ name.length then
      let nm := pyLowerStr name
      let pre2 := nm.take 2
      match bucketLookup repo.objectsDir pre2 with
      | some files =>
          some ((files.filter (fun f => (nm.drop 2).data.isPrefixOf f.data)).map
            (fun f => pre2 ++ f))
      | none => some []
    else some []
  else some []

/-- The `while True` follow loop of `object_find` (libwyag.py lines 411-426):
read the object; return its hash when the kind matches; stop with `None` when
not following; follow the `object` header of a tag, or the `tree` header of a commit
when a tree is wanted; `None` otherwise.  Fuel exhaustion models the infinite
loop on a cyclic chain (a terminating chain never repeats a hash, so any fuel
above the store size is enough). -/
def objectFindLoop (st : Store) (fmtb : Bytes) (follow : Bool) :
    Nat → String → Except PyErr (Option String)
  | 0, _ => .error .deserializeError
  | f+1, sha =>
      match object_read st sha with
      | .error e => .error e
      | .ok obj =>
          if obj.fmt = fmtb then .ok (some sha)
          else if !follow then .ok none
          else
            match obj with
            | .tag d =>
                match dctLookup d (strBytes "object") with
                | some (.one v) =>
                    match bytesAscii v with
                    | some s => objectFindLoop st fmtb follow f s
                    | none => .error .deserializeError
                | some (.many _) => .error (.attributeError "decode")
                | none => .error .deserializeError
            | .commit d =>
                if fmtb = strBytes "tree" then
                  match dctLookup d (strBytes "tree") with
                  | some (.one v) =>
                      match bytesAscii v with
                      | some s => objectFindLoop st fmtb follow f s
                      | none => .error .deserializeError
                  | some (.many _) => .error (.attributeError "decode")
                  | none => .error .deserializeError
                else .ok none
            | _ => .ok none

/-- `object_find(repo, name, fmt, follow)` (libwyag.py lines 396-406 and the
follow loop): resolve the name; raise `No such reference` when the candidate
list is missing or empty; raise `Ambiguous reference` carrying the candidate
list when it has more than one element; otherwise take the single candidate
and, when a kind is requested (`fmt=None` is `none` here), run the follow
loop. -/
def object_find (st : Store) (repo : Repo) (name : String) (fmtOpt : Option Bytes)
    (follow : Bool) : Except PyErr (Option String) :=
  match object_resolve repo name with
  | none => .error (.notFound name)
  | some [] => .error (.notFound name)
  | some (s :: rest) =>
      if rest ≠ [] then .error (.ambiguous name (s :: rest))
      else
        match fmtOpt with
        | none => .ok (some s)
        | some fmtb => objectFindLoop st fmtb follow (st.length + 1) s

/-! ## Checkout -/

/-- The in-memory state of a `GitTree` instance: `deserialize` (libwyag.py
line 250) stores the parsed entries in the attribute `items`. -/
structure GitTreeState where
  items : List GitTreeLeaf
deriving DecidableEq, Repr

/-- `tree_checkout(repo, tree, path)` (libwyag.py lines 526-536): the loop
header iterates `tree.item` — but `GitTree.deserialize` stores the entry list
in the attribute `items`, and no statement in the program assigns `item`, so
the attribute lookup raises `AttributeError` before any entry is visited,
whatever the store, the tree contents and the target path are. -/
def tree_checkout (_st : Store) (_tree : GitTreeState) (_path : Bytes) :
    Except PyErr Unit :=
  .error (.attributeError "item")

/-! ## Well-formed KVLM inputs

A logical header value with RFC822-style folding: the segments are the
physical pieces, joined by `"\n "` (newline-space). In the rendered bytes each
newline inside a value is therefore followed by a space, and a value never
ends in a newline — exactly the continuation discipline of the grammar. -/

/-- Join value segments with `NL SP`. -/
def foldedVal : List Bytes → Bytes
  | [] => []
  | [s] => s
  | s :: rest => s ++ 10 :: 32 :: foldedVal rest

/-- The bytes that follow the first newline of a folded value inside the
rendered input: for each further segment, the continuation space, the segment
and its newline; then the bytes after the line. -/
def contAfter : List Bytes → Bytes → Bytes
  | [], post => post
  | s :: ss, post => 32 :: (s ++ 10 :: contAfter ss post)

/-- Distance from the first newline of a folded value to its last one. -/
def contDrop : List Bytes → Nat
  | [] => 0
  | s :: ss => 2 + s.length + contDrop ss

/-- One rendered header line `key SP value NL`. -/
def renderKvLine (k v : Bytes) : Bytes := k ++ 32 :: (v ++ [10])

/-- Rendered header lines of a list of `(key, value-segments)` pairs. -/
def renderKvLines (ls : List (Bytes × List Bytes)) : Bytes :=
  (ls.map (fun l => renderKvLine l.1 (foldedVal l.2))).flatten

/-- A whole well-formed KVLM byte string: header lines, blank line, message. -/
def renderKvlm (ls : List (Bytes × List Bytes)) (msg : Bytes) : Bytes :=
  renderKvLines ls ++ 10 :: msg

/-- A header key: non-empty, no space, no newline. -/
def wfKvKey (k : Bytes) : Prop := k ≠ [] ∧ 32 ∉ k ∧ 10 ∉ k

/-- A header line: well-formed key and at least one newline-free segment. -/
def wfKvLine (l : Bytes × List Bytes) : Prop :=
  wfKvKey l.1 ∧ l.2 ≠ [] ∧ ∀ s ∈ l.2, 10 ∉ s

/-- Lines of a grouped key-value list: for each `(key, values)` group, one
line per value, in order. -/
def groupLines (gs : List (Bytes × List (List Bytes))) : List (Bytes × List Bytes) :=
  (gs.map (fun g => g.2.map (fun segs => (g.1, segs)))).flatten

/-- The duck-typed dictionary value of a run of occurrences: a scalar for a
single occurrence, the accumulated list otherwise. -/
def groupVal : List Bytes → KvlmVal
  | [v] => .one v
  | vs => .many vs

/-- The dictionary that parsing a grouped well-formed KVLM string produces:
one entry per group in first-occurrence order, then the message pseudo-key. -/
def kvlmGroupDict (gs : List (Bytes × List (List Bytes))) (msg : Bytes) : KvlmDict :=
  gs.map (fun g => (g.1, groupVal (g.2.map foldedVal))) ++ [([], .one msg)]

/-- Well-formed grouped headers: pairwise-distinct well-formed keys, each
group non-empty, each value a non-empty list of newline-free segments. -/
def wfKvGroups (gs : List (Bytes × List (List Bytes))) : Prop :=
  (gs.map Prod.fst).Nodup ∧
  ∀ g ∈ gs, wfKvKey g.1 ∧ g.2 ≠ [] ∧ ∀ segs ∈ g.2, segs ≠ [] ∧ ∀ s ∈ segs, 10 ∉ s

/-! ## Well-formed tree inputs -/

/-- The data of one well-formed binary tree entry. -/
structure TreeEntryData where
  mode : Bytes
  path : Bytes
  shaBytes : Bytes
deriving DecidableEq, Repr

/-- Well-formed entry: mode of 5 or 6 space-free bytes, `NUL`-free path, and
exactly 20 sha bytes, each below 256 (the sha may begin with zero bytes). -/
def wfTreeEntry (e : TreeEntryData) : Prop :=
  (e.mode.length = 5 ∨ e.mode.length = 6) ∧ 32 ∉ e.mode ∧ 0 ∉ e.path ∧
  e.shaBytes.length = 20 ∧ ∀ b ∈ e.shaBytes, b < 256

/-- One rendered entry `mode SP path NUL sha20`. -/
def renderTreeEntry (e : TreeEntryData) : Bytes :=
  e.mode ++ 32 :: (e.path ++ 0 :: e.shaBytes)

/-- A whole well-formed tree payload: concatenated entries, no separators. -/
def renderTree (es : List TreeEntryData) : Bytes := (es.map renderTreeEntry).flatten

/-- The leaf that `tree_parse_one` produces for a well-formed entry. -/
def entryLeaf (e : TreeEntryData) : GitTreeLeaf :=
  { mode := e.mode, path := e.path, sha := pyHex (bytesToNat e.shaBytes) }

instance (k : Bytes) : Decidable (wfKvKey k) := by unfold wfKvKey; infer_instance

instance (l : Bytes × List Bytes) : Decidable (wfKvLine l) := by unfold wfKvLine; infer_instance

instance (gs : List (Bytes × List (List Bytes))) : Decidable (wfKvGroups gs) := by
  unfold wfKvGroups wfKvKey; infer_instance

instance (e : TreeEntryData) : Decidable (wfTreeEntry e) := by unfold wfTreeEntry; infer_instance

/-! ## Claim theorems: concrete evaluations -/

set_option maxRecDepth 100000

/-- C1: the store round-trip law fails for kind `commit` (and `tag`): writing
any commit object calls `GitCommit.serialize`, which reads the never-assigned
attribute `kvml` (a slip for `kvlm`), so `object_write` raises
`AttributeError` instead of storing the object.  Shown at the concrete payload
`b"tree a\n\nm"`: the payload parses fine, but writing the resulting commit
fails. -/
theorem C1_commit_write_attribute_error :
    kvlm_parse (strBytes "tree a\n\nm") =
      some [(strBytes "tree", KvlmVal.one (strBytes "a")), ([], KvlmVal.one (strBytes "m"))] ∧
    object_write [] (GitObj.commit
      [(strBytes "tree", KvlmVal.one (strBytes "a")), ([], KvlmVal.one (strBytes "m"))]) =
      Except.error (PyErr.attributeError "kvml") := ⟨rfl, rfl⟩

/-- C4: a full 40-character hexadecimal name is NOT accepted by
`object_resolve`: the anchored pattern `[0-9A-Fa-f]{1,16}` caps the match at
16 characters, so a 40-character name falls through every branch and the empty
candidate list is returned, whatever the repository contains (the
`len(name) == 40` branch is dead code). -/
theorem C4_full_hash_yields_no_candidates (repo : Repo) :
    object_resolve repo "ce013625030ba8dba906f756967f9e9ca394464a" = some [] := rfl

/-- C4 witness: the dead-branch behaviour at a concrete repository. -/
theorem C4_full_hash_yields_no_candidates_witness :
    object_resolve ⟨"h", [("ce", ["013625030ba8dba906f756967f9e9ca394464a"])]⟩
      "ce013625030ba8dba906f756967f9e9ca394464a" = some [] :=
  C4_full_hash_yields_no_candidates ⟨"h", [("ce", ["013625030ba8dba906f756967f9e9ca394464a"])]⟩

/-- C5: the `sha` field produced by `tree_parse_one` is not always 40
characters: `hex(int.from_bytes(...))[2:]` drops leading zeros, so the
20-byte value `0x00...0001` parses to the 1-character string `"1"`. -/
theorem C5_short_sha_not_padded :
    tree_parse_one (strBytes "100644 a.txt" ++ 0 :: (List.replicate 19 0 ++ [1])) 0 =
      some (33, { mode := strBytes "100644", path := strBytes "a.txt", sha := "1" }) ∧
    ("1" : String).length ≠ 40 := ⟨rfl, by decide⟩

/-- C6: the continuation space is NOT stripped by `kvlm_parse`: the call
`bytes.replace` on the value slice (line 457) replaces a newline by itself, so the
folded input `b"a b\n c\n\nm"` yields the logical value `b"b\n c"` (space
kept), not `b"b\nc"` as the claim states. -/
theorem C6_continuation_space_not_stripped :
    kvlm_parse (strBytes "a b\n c\n\nm") =
      some [(strBytes "a", KvlmVal.one (strBytes "b\n c")), ([], KvlmVal.one (strBytes "m"))] ∧
    strBytes "b\n c" ≠ strBytes "b\nc" := ⟨rfl, by decide⟩

/-- C7: the single-entry tree serializes to `b"100644 a.txt\x00"` followed by
the 20 raw bytes of the hello-blob hash, as claimed — but checking any tree
out fails: `tree_checkout` iterates the never-assigned attribute `tree.item`
(the parser stores `items`), so the checkout raises `AttributeError` and no
file is created. -/
theorem C7_tree_serialize_checkout :
    tree_serialize [(⟨strBytes "100644", strBytes "a.txt",
        sha1Hex (strBytes "blob 6" ++ 0 :: strBytes "hello\n")⟩ : GitTreeLeaf)] =
      some (strBytes "100644 a.txt" ++ 0 ::
        [0xce, 0x01, 0x36, 0x25, 0x03, 0x0b, 0xa8, 0xdb, 0xa9, 0x06,
         0xf7, 0x56, 0x96, 0x7f, 0x9e, 0x9c, 0xa3, 0x94, 0x46, 0x4a]) ∧
    tree_checkout [] ⟨[(⟨strBytes "100644", strBytes "a.txt",
        sha1Hex (strBytes "blob 6" ++ 0 :: strBytes "hello\n")⟩ : GitTreeLeaf)]⟩
      (strBytes "/tmp/target") = Except.error (PyErr.attributeError "item") := ⟨rfl, rfl⟩

/-- C8 counterexample: writing the blob `b"hello\n"` yields the hash
`ce013625030ba8dba906f756967f9e9ca394464a`, which differs from the
39-character string stated in the claim (the final `a` is missing there). -/
theorem C8_claimed_hash_differs :
    object_write [] (GitObj.blob (strBytes "hello\n")) =
      Except.ok ("ce013625030ba8dba906f756967f9e9ca394464a",
        [(("ce", "013625030ba8dba906f756967f9e9ca394464a"),
          strBytes "blob 6" ++ 0 :: strBytes "hello\n")]) ∧
    "ce013625030ba8dba906f756967f9e9ca394464a" ≠ "ce013625030ba8dba906f756967f9e9ca394464" :=
  ⟨rfl, by decide⟩

/-- C8 amended: writing the blob `b"hello\n"` stores the record
`b"blob 6\x00hello\n"` under the 40-character hash
`ce013625030ba8dba906f756967f9e9ca394464a`, and reading that hash back from
the resulting store returns kind `blob` with payload `b"hello\n"`. -/
theorem C8_hello_blob_roundtrip :
    object_write [] (GitObj.blob (strBytes "hello\n")) =
      Except.ok ("ce013625030ba8dba906f756967f9e9ca394464a",
        [(("ce", "013625030ba8dba906f756967f9e9ca394464a"),
          strBytes "blob 6" ++ 0 :: strBytes "hello\n")]) ∧
    object_read [(("ce", "013625030ba8dba906f756967f9e9ca394464a"),
        strBytes "blob 6" ++ 0 :: strBytes "hello\n")]
      "ce013625030ba8dba906f756967f9e9ca394464a" =
      Except.ok (GitObj.blob (strBytes "hello\n")) := ⟨rfl, rfl⟩

/-- C2 counterexample: the well-formed KVLM byte string `b"a 1\nb 2\na 3\n\n"`
(three header lines, the key `a` repeated non-consecutively, empty message)
does not round-trip: the dictionary groups the two `a` occurrences at the
the position of its first occurrence, so serialisation reorders the lines. -/
theorem C2_reordered_duplicate_keys :
    renderKvlm [(strBytes "a", [strBytes "1"]), (strBytes "b", [strBytes "2"]),
        (strBytes "a", [strBytes "3"])] [] = strBytes "a 1\nb 2\na 3\n\n" ∧
    (∀ l ∈ [(strBytes "a", [strBytes "1"]), (strBytes "b", [strBytes "2"]),
        (strBytes "a", [strBytes "3"])], wfKvLine l) ∧
    (kvlm_parse (strBytes "a 1\nb 2\na 3\n\n")).bind kvlm_serialize =
      some (strBytes "a 1\na 3\nb 2\n\n") ∧
    strBytes "a 1\na 3\nb 2\n\n" ≠ strBytes "a 1\nb 2\na 3\n\n" :=
  ⟨rfl, by decide, rfl, by decide⟩

/-! ## Helper lemmas about the Python primitives -/

theorem byteIdx_eq_none {b : Nat} {l : Bytes} (h : b ∉ l) : byteIdx b l = none := by
  induction l with
  | nil => rfl
  | cons x xs ih =>
      have hx : x ≠ b := fun e => h (e ▸ List.mem_cons_self x xs)
      have hxs : b ∉ xs := fun m => h (List.mem_cons_of_mem x m)
      simp [byteIdx, hx, ih hxs]

theorem byteIdx_append {b : Nat} {xs : Bytes} (h : b ∉ xs) (ys : Bytes) :
    byteIdx b (xs ++ b :: ys) = some xs.length := by
  induction xs with
  | nil => simp [byteIdx]
  | cons x xs ih =>
      have hx : x ≠ b := fun e => h (e ▸ List.mem_cons_self x xs)
      have hxs : b ∉ xs := fun m => h (List.mem_cons_of_mem x m)
      simp [byteIdx, hx, ih hxs]

theorem pyFind_nat_some {l : Bytes} {b n i : Nat} (h : byteIdx b (l.drop n) = some i) :
    pyFind l b (n : Int) = ((n + i : Nat) : Int) := by
  unfold pyFind
  have h1 : ¬ ((n : Int) < 0) := by omega
  rw [if_neg h1]
  have h2 : ((n : Int)).toNat = n := by omega
  rw [h2]
  show (match byteIdx b (l.drop n) with
    | some i => ((n + i : Nat) : Int)
    | none => -1) = ((n + i : Nat) : Int)
  rw [h]

theorem pyFind_nat_none {l : Bytes} {b : Nat} {n : Nat} (h : byteIdx b (l.drop n) = none) :
    pyFind l b (n : Int) = -1 := by
  unfold pyFind
  have h1 : ¬ ((n : Int) < 0) := by omega
  rw [if_neg h1]
  have h2 : ((n : Int)).toNat = n := by omega
  rw [h2]
  show (match byteIdx b (l.drop n) with
    | some i => ((n + i : Nat) : Int)
    | none => -1) = -1
  rw [h]

theorem pyFind_of_drop {l mid post : Bytes} {b : Nat} {n : Nat}
    (hd : l.drop n = mid ++ b :: post) (hm : b ∉ mid) :
    pyFind l b n = ((n + mid.length : Nat) : Int) :=
  pyFind_nat_some (by rw [hd]; exact byteIdx_append hm post)

theorem pyFind_eq_neg_one {l post : Bytes} {b : Nat} {n : Nat}
    (hd : l.drop n = post) (hm : b ∉ post) : pyFind l b n = -1 :=
  pyFind_nat_none (by rw [hd]; exact byteIdx_eq_none hm)

theorem pyFind_cons_ne {l tail : Bytes} {b c : Nat} {n : Nat}
    (hd : l.drop n = c :: tail) (hc : c ≠ b) :
    pyFind l b n = -1 ∨ ∃ j : Nat, pyFind l b n = ((n + 1 + j : Nat) : Int) := by
  cases hbi : byteIdx b tail with
  | none =>
      left
      refine pyFind_nat_none ?_
      rw [hd]
      simp [byteIdx, hc, hbi]
  | some i =>
      right
      refine ⟨i, ?_⟩
      have hstep : pyFind l b n = ((n + (i + 1) : Nat) : Int) := by
        refine pyFind_nat_some ?_
        rw [hd]
        simp only [byteIdx, if_neg hc, hbi]
        rfl
      rw [hstep]
      congr 1
      omega

theorem pyBound_coe {len n : Nat} (h : n ≤ len) : pyBound len (n : Int) = n := by
  unfold pyBound
  rw [if_neg (by omega : ¬ ((n : Int) < 0))]
  have h2 : ((n : Int)).toNat = n := by omega
  rw [h2]
  omega

theorem pySlice_of_drop {l mid post : Bytes} {n : Nat}
    (hn : n ≤ l.length) (hd : l.drop n = mid ++ post) :
    pySlice l (n : Int) ((n + mid.length : Nat) : Int) = mid := by
  have hlen : (l.drop n).length = l.length - n := List.length_drop n l
  rw [hd] at hlen
  simp only [List.length_append] at hlen
  have hb : n + mid.length ≤ l.length := by omega
  simp only [pySlice, pyBound_coe hn, pyBound_coe hb]
  rw [hd]
  have : n + mid.length - n = mid.length := by omega
  rw [this]
  exact List.take_left mid post

theorem pySlice_to_end (l : Bytes) (n : Nat) :
    pySlice l (n : Int) (l.length : Int) = l.drop n := by
  rcases le_or_lt n l.length with h | h
  · simp only [pySlice, pyBound_coe h, pyBound_coe (le_refl l.length)]
    exact List.take_of_length_le (by simp)
  · unfold pySlice pyBound
    rw [if_neg (by omega : ¬ ((n : Int) < 0)), if_neg (by omega : ¬ ((l.length : Int) < 0))]
    have h1 : ((n : Int)).toNat = n := by omega
    have h2 : ((l.length : Int)).toNat = l.length := by omega
    rw [h1, h2]
    have h3 : min n l.length = l.length := by omega
    rw [h3]
    rw [List.drop_eq_nil_of_le (le_refl l.length), List.drop_eq_nil_of_le (le_of_lt h)]
    simp

theorem getElem?_eq_head_drop (l : Bytes) (n : Nat) : l[n]? = (l.drop n).head? := by
  induction l generalizing n with
  | nil => simp
  | cons x xs ih =>
      cases n with
      | zero => simp
      | succ m => simp only [List.getElem?_cons_succ, List.drop_succ_cons]; exact ih m

theorem pyIndex_of_drop {l post : Bytes} {n : Nat} (hd : l.drop n = post) :
    pyIndex l (n : Int) = post.head? := by
  unfold pyIndex
  rw [if_neg (by omega : ¬ ((n : Int) < 0)), if_neg (by omega : ¬ ((n : Int) < 0))]
  have h2 : ((n : Int)).toNat = n := by omega
  rw [h2, getElem?_eq_head_drop, hd]

/-! ## Helper lemmas about the numeric codecs -/

theorem hexCharVal_hexDigitChar : ∀ d < 16, hexCharVal (hexDigitChar d) = some d := by decide

theorem hexDigitsAux_ne_nil (f n : Nat) : hexDigitsAux f n ≠ [] := by
  cases f with
  | zero => simp [hexDigitsAux]
  | succ f =>
      simp only [hexDigitsAux]
      split <;> intro hc <;> simp at hc

theorem hexFoldl_none (cs : List Char) :
    cs.foldl (fun acc c => match acc, hexCharVal c with
      | some a, some v => some (a * 16 + v)
      | _, _ => none) none = none := by
  induction cs with
  | nil => rfl
  | cons c cs ih =>
      simp only [List.foldl_cons]
      exact ih

theorem hexFoldl_eq (cs : List Char) : ∀ a : Nat,
    cs.foldl (fun acc c => match acc, hexCharVal c with
      | some a, some v => some (a * 16 + v)
      | _, _ => none) (some a) = hexDigitsVal a cs := by
  induction cs with
  | nil => intro a; rfl
  | cons c cs ih =>
      intro a
      rcases h : hexCharVal c with _ | v
      · simp only [List.foldl_cons, h, hexDigitsVal]
        exact hexFoldl_none cs
      · simp only [List.foldl_cons, h, hexDigitsVal]
        exact ih _

theorem hexDigitsVal_append (a : Nat) (xs ys : List Char) :
    hexDigitsVal a (xs ++ ys) = (hexDigitsVal a xs).bind (fun b => hexDigitsVal b ys) := by
  induction xs generalizing a with
  | nil => simp [hexDigitsVal]
  | cons c cs ih =>
      simp only [List.cons_append, hexDigitsVal]
      rcases h : hexCharVal c with _ | v <;> simp only [h]
      · rfl
      · exact ih _

theorem hexDigitsVal_hexDigitsAux : ∀ f n, n ≤ f → hexDigitsVal 0 (hexDigitsAux f n) = some n := by
  intro f
  induction f with
  | zero =>
      intro n hn
      have hn0 : n = 0 := by omega
      subst hn0
      simp only [hexDigitsAux, hexDigitsVal]
      rw [hexCharVal_hexDigitChar 0 (by omega)]
  | succ f ih =>
      intro n hn
      simp only [hexDigitsAux]
      by_cases h16 : n < 16
      · rw [if_pos h16]
        simp only [hexDigitsVal]
        rw [hexCharVal_hexDigitChar n h16]
        simp [hexDigitsVal]
      · rw [if_neg h16]
        rw [hexDigitsVal_append]
        have hdivf : n / 16 ≤ f := by
          have h1 : n / 16 < n := Nat.div_lt_self (by omega) (by omega)
          omega
        rw [ih (n / 16) hdivf, Option.some_bind]
        simp only [hexDigitsVal]
        rw [hexCharVal_hexDigitChar (n % 16) (by omega)]
        simp only [hexDigitsVal]
        have hdm : n / 16 * 16 + n % 16 = n := by omega
        rw [hdm]

theorem pyIntHex_pyHex (n : Nat) : pyIntHex (pyHex n) = some n := by
  unfold pyIntHex pyHex
  rw [if_neg (by exact hexDigitsAux_ne_nil n n)]
  rw [hexFoldl_eq]
  exact hexDigitsVal_hexDigitsAux n n le_rfl

theorem bytesToNat_append (l : Bytes) (b : Nat) :
    bytesToNat (l ++ [b]) = bytesToNat l * 256 + b := by
  unfold bytesToNat
  rw [List.foldl_append]
  rfl

theorem bytesToNat_lt (l : Bytes) (h : ∀ b ∈ l, b < 256) : bytesToNat l < 256 ^ l.length := by
  induction l using List.reverseRecOn with
  | nil => simp [bytesToNat]
  | append_singleton xs x ih =>
      rw [bytesToNat_append]
      have hx : x < 256 := h x (by simp)
      have hxs : bytesToNat xs < 256 ^ xs.length := ih (fun b hb => h b (by simp [hb]))
      have h2 : (bytesToNat xs + 1) * 256 ≤ 256 ^ xs.length * 256 :=
        Nat.mul_le_mul_right _ (Nat.succ_le_of_lt hxs)
      calc bytesToNat xs * 256 + x < (bytesToNat xs + 1) * 256 := by omega
        _ ≤ 256 ^ xs.length * 256 := h2
        _ = 256 ^ (xs.length + 1) := (pow_succ 256 xs.length).symm
        _ = 256 ^ (xs ++ [x]).length := by simp

theorem natBytesBE_bytesToNat (l : Bytes) (h : ∀ b ∈ l, b < 256) :
    natBytesBE l.length (bytesToNat l) = l := by
  induction l using List.reverseRecOn with
  | nil => rfl
  | append_singleton xs x ih =>
      have hx : x < 256 := h x (by simp)
      rw [bytesToNat_append]
      have hlen : (xs ++ [x]).length = xs.length + 1 := by simp
      rw [hlen]
      simp only [natBytesBE]
      have hcomm : bytesToNat xs * 256 + x = x + bytesToNat xs * 256 := by omega
      have hdiv : (bytesToNat xs * 256 + x) / 256 = bytesToNat xs := by
        rw [hcomm, Nat.add_mul_div_right _ _ (by omega : 0 < 256), Nat.div_eq_of_lt hx]
        omega
      have hmod : (bytesToNat xs * 256 + x) % 256 = x := by
        rw [hcomm, Nat.add_mul_mod_self_right, Nat.mod_eq_of_lt hx]
      rw [hdiv, hmod, ih (fun b hb => h b (by simp [hb]))]

/-! ## Tree round-trip lemmas -/

theorem drop_add_of_drop {l now : Bytes} {p k : Nat} (h : l.drop p = now) :
    l.drop (p + k) = now.drop k := by
  subst h
  rw [List.drop_drop]

theorem renderTreeEntry_length (e : TreeEntryData) :
    (renderTreeEntry e).length = e.mode.length + e.path.length + e.shaBytes.length + 2 := by
  simp [renderTreeEntry]
  omega

theorem tree_parse_one_render (pre : Bytes) (e : TreeEntryData) (rest : Bytes)
    (he : wfTreeEntry e) :
    tree_parse_one (pre ++ (renderTreeEntry e ++ rest)) (pre.length : Int) =
      some (((pre.length + (renderTreeEntry e).length : Nat) : Int), entryLeaf e) := by
  obtain ⟨hmode, hm32, hp0, hsha, hlt⟩ := he
  have hdrop : (pre ++ (renderTreeEntry e ++ rest)).drop pre.length =
      e.mode ++ 32 :: ((e.path ++ 0 :: e.shaBytes) ++ rest) := by
    rw [List.drop_left]
    simp [renderTreeEntry]
  have hlenraw : (pre ++ (renderTreeEntry e ++ rest)).length =
      pre.length + ((renderTreeEntry e).length + rest.length) := by simp
  have hple : pre.length ≤ (pre ++ (renderTreeEntry e ++ rest)).length := by
    rw [hlenraw]; omega
  have hm2 : pre.length + e.mode.length ≤ (pre ++ (renderTreeEntry e ++ rest)).length := by
    rw [hlenraw, renderTreeEntry_length]; omega
  have hp1 : pre.length + e.mode.length + 1 ≤ (pre ++ (renderTreeEntry e ++ rest)).length := by
    rw [hlenraw, renderTreeEntry_length]; omega
  have hp2 : pre.length + e.mode.length + 1 + e.path.length + 1 ≤
      (pre ++ (renderTreeEntry e ++ rest)).length := by
    rw [hlenraw, renderTreeEntry_length]; omega
  have hx : pyFind (pre ++ (renderTreeEntry e ++ rest)) 32 pre.length =
      ((pre.length + e.mode.length : Nat) : Int) :=
    pyFind_of_drop hdrop hm32
  have hdrop2 : (pre ++ (renderTreeEntry e ++ rest)).drop (pre.length + e.mode.length) =
      (32 :: e.path) ++ 0 :: (e.shaBytes ++ rest) := by
    rw [drop_add_of_drop hdrop, List.drop_left]
    simp
  have h0nm : (0 : Nat) ∉ (32 :: e.path) := by
    intro hc
    rcases List.mem_cons.mp hc with h | h
    · omega
    · exact hp0 h
  have hy : pyFind (pre ++ (renderTreeEntry e ++ rest)) 0
      ((pre.length + e.mode.length : Nat) : Int) =
      ((pre.length + e.mode.length + 1 + e.path.length : Nat) : Int) := by
    rw [pyFind_of_drop hdrop2 h0nm]
    have : pre.length + e.mode.length + (32 :: e.path).length =
        pre.length + e.mode.length + 1 + e.path.length := by simp; omega
    rw [this]
  have hdrop3 : (pre ++ (renderTreeEntry e ++ rest)).drop (pre.length + e.mode.length + 1) =
      e.path ++ 0 :: (e.shaBytes ++ rest) := by
    rw [drop_add_of_drop hdrop2]
    simp
  have hdrop4 : (pre ++ (renderTreeEntry e ++ rest)).drop
      (pre.length + e.mode.length + 1 + e.path.length + 1) = e.shaBytes ++ rest := by
    have h1 : pre.length + e.mode.length + 1 + e.path.length + 1 =
        pre.length + e.mode.length + 1 + (e.path.length + 1) := by omega
    rw [h1, drop_add_of_drop hdrop3]
    have h2 : e.path ++ 0 :: (e.shaBytes ++ rest) = (e.path ++ [0]) ++ (e.shaBytes ++ rest) := by
      simp
    have h3 : e.path.length + 1 = (e.path ++ [0]).length := by simp
    rw [h2, h3, List.drop_left]
  simp only [tree_parse_one]
  rw [hx]
  have hcond : ((pre.length + e.mode.length : Nat) : Int) - (pre.length : Int) = 5 ∨
      ((pre.length + e.mode.length : Nat) : Int) - (pre.length : Int) = 6 := by
    rcases hmode with h | h
    · left; omega
    · right; omega
  rw [if_pos hcond, hy]
  have hslice1 : pySlice (pre ++ (renderTreeEntry e ++ rest)) (pre.length : Int)
      ((pre.length + e.mode.length : Nat) : Int) = e.mode :=
    pySlice_of_drop hple (by rw [hdrop])
  have he1 : ((pre.length + e.mode.length : Nat) : Int) + 1 =
      ((pre.length + e.mode.length + 1 : Nat) : Int) := by omega
  have hslice2 : pySlice (pre ++ (renderTreeEntry e ++ rest))
      ((pre.length + e.mode.length + 1 : Nat) : Int)
      ((pre.length + e.mode.length + 1 + e.path.length : Nat) : Int) = e.path :=
    pySlice_of_drop hp1 (by rw [hdrop3])
  have he2 : ((pre.length + e.mode.length + 1 + e.path.length : Nat) : Int) + 1 =
      ((pre.length + e.mode.length + 1 + e.path.length + 1 : Nat) : Int) := by omega
  have he3 : ((pre.length + e.mode.length + 1 + e.path.length : Nat) : Int) + 21 =
      ((pre.length + e.mode.length + 1 + e.path.length + 1 + 20 : Nat) : Int) := by omega
  have hslice3 : pySlice (pre ++ (renderTreeEntry e ++ rest))
      ((pre.length + e.mode.length + 1 + e.path.length + 1 : Nat) : Int)
      ((pre.length + e.mode.length + 1 + e.path.length + 1 + 20 : Nat) : Int) = e.shaBytes := by
    have hstep := pySlice_of_drop hp2 hdrop4
    rw [hsha] at hstep
    exact hstep
  rw [he1, he2, he3, hslice1, hslice2, hslice3]
  have he4 : ((pre.length + e.mode.length + 1 + e.path.length + 1 + 20 : Nat) : Int) =
      ((pre.length + (renderTreeEntry e).length : Nat) : Int) := by
    rw [renderTreeEntry_length]
    omega
  rw [he4]
  rfl

theorem renderTreeEntry_ne_nil (e : TreeEntryData) : renderTreeEntry e ≠ [] := by
  simp [renderTreeEntry]

theorem renderTree_cons (e : TreeEntryData) (es : List TreeEntryData) :
    renderTree (e :: es) = renderTreeEntry e ++ renderTree es := by
  simp [renderTree]

theorem length_le_renderTree (es : List TreeEntryData) :
    es.length ≤ (renderTree es).length := by
  induction es with
  | nil => simp [renderTree]
  | cons e es ih =>
      rw [renderTree_cons]
      have h1 : 1 ≤ (renderTreeEntry e).length :=
        List.length_pos.mpr (renderTreeEntry_ne_nil e)
      simp only [List.length_append, List.length_cons]
      omega

theorem treeParseGo_render : ∀ (es : List TreeEntryData) (pre : Bytes)
    (acc : List GitTreeLeaf) (f : Nat),
    (∀ e ∈ es, wfTreeEntry e) → es.length < f →
    treeParseGo (pre ++ renderTree es) f (pre.length : Int) acc =
      some (acc ++ es.map entryLeaf) := by
  intro es
  induction es with
  | nil =>
      intro pre acc f _ hf
      match f, hf with
      | f+1, _ =>
        simp only [treeParseGo, renderTree, List.map_nil, List.flatten_nil, List.append_nil]
        rw [if_neg (by omega : ¬ ((pre.length : Nat) : Int) < ((pre.length : Nat) : Int))]
  | cons e es ih =>
      intro pre acc f hwf hf
      match f, hf with
      | f+1, hf =>
        rw [renderTree_cons]
        simp only [treeParseGo]
        have hlt : ((pre.length : Nat) : Int) <
            (((pre ++ (renderTreeEntry e ++ renderTree es)).length : Nat) : Int) := by
          have h1 : 1 ≤ (renderTreeEntry e).length :=
            List.length_pos.mpr (renderTreeEntry_ne_nil e)
          simp only [List.length_append]
          omega
        rw [if_pos hlt, tree_parse_one_render pre e (renderTree es)
          (hwf e (List.mem_cons_self e es))]
        have hnext := ih (pre ++ renderTreeEntry e) (acc ++ [entryLeaf e]) f
          (fun x hx => hwf x (List.mem_cons_of_mem e hx)) (by simp at hf ⊢; omega)
        rw [List.append_assoc, List.length_append] at hnext
        have hlist : (acc ++ [entryLeaf e]) ++ es.map entryLeaf =
            acc ++ (e :: es).map entryLeaf := by simp
        rw [hlist] at hnext
        exact hnext

theorem tree_serialize_fold : ∀ (es : List TreeEntryData) (ret : Bytes),
    (∀ e ∈ es, wfTreeEntry e) →
    (es.map entryLeaf).foldl (fun acc i =>
      match acc with
      | none => none
      | some ret =>
          match pyIntHex i.sha with
          | none => none
          | some n =>
              match toBytes20 n with
              | none => none
              | some shaBytes => some (ret ++ i.mode ++ 32 :: (i.path ++ 0 :: shaBytes)))
      (some ret) = some (ret ++ renderTree es) := by
  intro es
  induction es with
  | nil =>
      intro ret _
      simp [renderTree]
  | cons e es ih =>
      intro ret hwf
      obtain ⟨hmode, hm32, hp0, hsha, hlt⟩ := hwf e (List.mem_cons_self e es)
      simp only [List.map_cons, List.foldl_cons]
      have hlt20 : bytesToNat e.shaBytes < 256 ^ 20 := by
        have := bytesToNat_lt e.shaBytes hlt
        rw [hsha] at this
        exact this
      have hbytes : toBytes20 (bytesToNat e.shaBytes) = some e.shaBytes := by
        unfold toBytes20
        rw [if_pos hlt20]
        have := natBytesBE_bytesToNat e.shaBytes hlt
        rw [hsha] at this
        rw [this]
      simp only [List.map_cons, List.foldl_cons, entryLeaf, pyIntHex_pyHex, hbytes]
      have hstep := ih (ret ++ e.mode ++ 32 :: (e.path ++ 0 :: e.shaBytes))
        (fun x hx => hwf x (List.mem_cons_of_mem e hx))
      rw [hstep, renderTree_cons]
      simp [renderTreeEntry, List.append_assoc]

/-- C3: the tree codec round-trips: for every well-formed tree payload —
a concatenation of entries `mode SP path NUL sha20` with a 5- or 6-byte
space-free mode, a `NUL`-free path and 20 sha bytes — `tree_parse` returns one
leaf per entry (mode and path verbatim, sha printed as unpadded lowercase
hexadecimal), `tree_serialize` reconstructs exactly the input bytes (the
missing hex padding is compensated by `to_bytes(20)`), and the number of
parsed entries equals the number of entries of the decomposition. -/
theorem C3_tree_roundtrip (es : List TreeEntryData) (h : ∀ e ∈ es, wfTreeEntry e) :
    tree_parse (renderTree es) = some (es.map entryLeaf) ∧
    tree_serialize (es.map entryLeaf) = some (renderTree es) ∧
    (es.map entryLeaf).length = es.length := by
  refine ⟨?_, ?_, by simp⟩
  · unfold tree_parse
    have hfe : es.length < (renderTree es).length + 1 := by
      have := length_le_renderTree es
      omega
    have hmain := treeParseGo_render es [] [] ((renderTree es).length + 1) h hfe
    simpa using hmain
  · unfold tree_serialize
    have hmain := tree_serialize_fold es [] h
    simpa using hmain

/-- C3 witness: the round-trip at a concrete two-entry payload, the first
sha consisting of nineteen zero bytes and a one. -/
theorem C3_tree_roundtrip_witness :
    tree_parse (renderTree ([⟨strBytes "100644", strBytes "a.txt",
        [0,0,0,0,0,0,0,0,0,0,0,0,0,0,0,0,0,0,0,1]⟩,
      ⟨strBytes "40000", strBytes "sub dir", List.replicate 20 255⟩] : List TreeEntryData)) =
      some (([⟨strBytes "100644", strBytes "a.txt",
        [0,0,0,0,0,0,0,0,0,0,0,0,0,0,0,0,0,0,0,1]⟩,
      ⟨strBytes "40000", strBytes "sub dir", List.replicate 20 255⟩] :
        List TreeEntryData).map entryLeaf) ∧
    tree_serialize (([⟨strBytes "100644", strBytes "a.txt",
        [0,0,0,0,0,0,0,0,0,0,0,0,0,0,0,0,0,0,0,1]⟩,
      ⟨strBytes "40000", strBytes "sub dir", List.replicate 20 255⟩] :
        List TreeEntryData).map entryLeaf) =
      some (renderTree ([⟨strBytes "100644", strBytes "a.txt",
        [0,0,0,0,0,0,0,0,0,0,0,0,0,0,0,0,0,0,0,1]⟩,
      ⟨strBytes "40000", strBytes "sub dir", List.replicate 20 255⟩] : List TreeEntryData)) ∧
    (([⟨strBytes "100644", strBytes "a.txt",
        [0,0,0,0,0,0,0,0,0,0,0,0,0,0,0,0,0,0,0,1]⟩,
      ⟨strBytes "40000", strBytes "sub dir", List.replicate 20 255⟩] :
        List TreeEntryData).map entryLeaf).length =
      ([⟨strBytes "100644", strBytes "a.txt",
        [0,0,0,0,0,0,0,0,0,0,0,0,0,0,0,0,0,0,0,1]⟩,
      ⟨strBytes "40000", strBytes "sub dir", List.replicate 20 255⟩] :
        List TreeEntryData).length :=
  C3_tree_roundtrip _ (by decide)

/-! ## KVLM dictionary lemmas and claims C10, C9 -/

theorem dctLookup_dctSet (d : KvlmDict) (k : Bytes) (v : KvlmVal) :
    dctLookup (dctSet d k v) k = some v := by
  induction d with
  | nil => simp [dctSet, dctLookup]
  | cons kv rest ih =>
      obtain ⟨k2, v2⟩ := kv
      by_cases h : k2 = k
      · simp [dctSet, dctLookup, h]
      · simp [dctSet, dctLookup, h, ih]

theorem kvlmFindEnd_zero (raw : Bytes) (e : Int) : kvlmFindEnd raw 0 e = none := rfl

theorem kvlmFindEnd_succ (raw : Bytes) (f : Nat) (e : Int) :
    kvlmFindEnd raw (f+1) e =
      (match pyIndex raw (pyFind raw 10 (e + 1) + 1) with
      | none => none
      | some c =>
          if c ≠ 32 then some (pyFind raw 10 (e + 1))
          else kvlmFindEnd raw f (pyFind raw 10 (e + 1))) := rfl

theorem kvlmParseGo_zero (raw : Bytes) (start : Int) (dct : KvlmDict) :
    kvlmParseGo raw 0 start dct = none := rfl

theorem kvlmParseGo_succ (raw : Bytes) (f : Nat) (start : Int) (dct : KvlmDict) :
    kvlmParseGo raw (f+1) start dct =
      (if pyFind raw 32 start < 0 ∨ pyFind raw 10 start < pyFind raw 32 start then
        if pyFind raw 10 start = start then
          some (dctSet dct [] (KvlmVal.one (pySlice raw (start + 1) raw.length)))
        else none
      else
        match kvlmFindEnd raw (2 * raw.length + 4) start with
        | none => none
        | some e =>
            kvlmParseGo raw f (e + 1)
              (dctInsert dct (pySlice raw start (pyFind raw 32 start))
                (replaceNlNl (pySlice raw (pyFind raw 32 start + 1) e)))) := rfl

theorem kvlmParseGo_message : ∀ (f : Nat) (raw : Bytes) (start : Int) (dct d : KvlmDict),
    kvlmParseGo raw f start dct = some d →
    ∃ v, dctLookup d [] = some (KvlmVal.one v) := by
  intro f
  induction f with
  | zero =>
      intro raw start dct d h
      rw [kvlmParseGo_zero] at h
      exact absurd h (by simp)
  | succ f ih =>
      intro raw start dct d h
      rw [kvlmParseGo_succ] at h
      split at h
      · split at h
        · obtain rfl := Option.some.inj h
          exact ⟨_, dctLookup_dctSet dct [] _⟩
        · exact absurd h (by simp)
      · split at h
        · exact absurd h (by simp)
        · exact ih raw _ _ d h

/-- C10: every dictionary returned by a successful `kvlm_parse` contains the
empty-bytes message pseudo-key with a scalar value, so `kvlm_serialize` applied to a
parse result never fails the message lookup and always emits the header
lines, one blank line, then the message. -/
theorem C10_message_pseudo_key (raw : Bytes) (d : KvlmDict) (h : kvlm_parse raw = some d) :
    ∃ v, dctLookup d [] = some (KvlmVal.one v) ∧
      kvlm_serialize d = some (kvlmHeaderBytes d ++ 10 :: v) := by
  obtain ⟨v, hv⟩ := kvlmParseGo_message (raw.length + 1) raw 0 [] d h
  refine ⟨v, hv, ?_⟩
  unfold kvlm_serialize
  rw [hv]

/-- C10 witness: the invariant at the concrete input `b"tree a\n\nm"`. -/
theorem C10_message_pseudo_key_witness :
    ∃ v, dctLookup [(strBytes "tree", KvlmVal.one (strBytes "a")),
        ([], KvlmVal.one (strBytes "m"))] [] = some (KvlmVal.one v) ∧
      kvlm_serialize [(strBytes "tree", KvlmVal.one (strBytes "a")),
        ([], KvlmVal.one (strBytes "m"))] =
        some (kvlmHeaderBytes [(strBytes "tree", KvlmVal.one (strBytes "a")),
          ([], KvlmVal.one (strBytes "m"))] ++ 10 :: v) :=
  C10_message_pseudo_key (strBytes "tree a\n\nm") _ rfl

/-- C9: `object_find` turns an empty candidate set (or the `None` returned for
a blank name) into the `No such reference` failure and a candidate set with
two or more elements into the `Ambiguous reference` failure carrying exactly
the candidate list; the two failures are distinct constructors and a
multi-candidate name is never silently resolved. -/
theorem C9_resolution_failures (st : Store) (repo : Repo) (name : String)
    (fmtOpt : Option Bytes) (follow : Bool) :
    ((object_resolve repo name = none ∨ object_resolve repo name = some []) →
      object_find st repo name fmtOpt follow = Except.error (PyErr.notFound name)) ∧
    (∀ cands, object_resolve repo name = some cands → 2 ≤ cands.length →
      object_find st repo name fmtOpt follow =
        Except.error (PyErr.ambiguous name cands)) := by
  constructor
  · intro h
    unfold object_find
    rcases h with h | h <;> rw [h]
  · intro cands hc hlen
    unfold object_find
    rw [hc]
    match cands, hlen with
    | c1 :: c2 :: rest, _ => simp

/-- C9 witness: a name matching no object fails with `notFound`, and a short
prefix matching two bucket entries fails with `ambiguous` listing both. -/
theorem C9_resolution_failures_witness :
    object_find [] ⟨"h", []⟩ "dead" none true = Except.error (PyErr.notFound "dead") ∧
    object_find [] ⟨"h", [("ab", ["cd111", "cd222"])]⟩ "abcd" none true =
      Except.error (PyErr.ambiguous "abcd" ["abcd111", "abcd222"]) :=
  ⟨(C9_resolution_failures [] ⟨"h", []⟩ "dead" none true).1 (Or.inr rfl),
   (C9_resolution_failures [] ⟨"h", [("ab", ["cd111", "cd222"])]⟩ "abcd" none true).2
     ["abcd111", "abcd222"] rfl (by decide)⟩

/-! ## KVLM round-trip lemmas (claim C2) -/

theorem foldedVal_cons_cons (s t : Bytes) (ts : List Bytes) :
    foldedVal (s :: t :: ts) = s ++ 10 :: 32 :: foldedVal (t :: ts) := rfl

theorem foldedVal_contAfter (s : Bytes) (rest : List Bytes) (post : Bytes) :
    foldedVal (s :: rest) ++ 10 :: post = s ++ 10 :: contAfter rest post := by
  induction rest generalizing s with
  | nil => rfl
  | cons t ts ih =>
      rw [foldedVal_cons_cons]
      show (s ++ 10 :: 32 :: foldedVal (t :: ts)) ++ 10 :: post =
        s ++ 10 :: 32 :: (t ++ 10 :: contAfter ts post)
      rw [List.append_assoc]
      congr 1
      simp only [List.cons_append]
      congr 2
      exact ih t

theorem foldedVal_length (s : Bytes) (rest : List Bytes) :
    (foldedVal (s :: rest)).length = s.length + contDrop rest := by
  induction rest generalizing s with
  | nil => simp [foldedVal, contDrop]
  | cons t ts ih =>
      rw [foldedVal_cons_cons]
      simp only [List.length_append, List.length_cons, contDrop, ih t]
      omega

theorem contDrop_ge (rest : List Bytes) : 2 * rest.length ≤ contDrop rest := by
  induction rest with
  | nil => simp [contDrop]
  | cons t ts ih => simp only [contDrop, List.length_cons]; omega

theorem kvlmFindEnd_loop : ∀ (rest : List Bytes) (raw mid post : Bytes) (e f : Nat),
    (∀ s ∈ rest, (10 : Nat) ∉ s) → (10 : Nat) ∉ mid → post ≠ [] → post.head? ≠ some 32 →
    raw.drop (e + 1) = mid ++ 10 :: contAfter rest post →
    rest.length < f →
    kvlmFindEnd raw f (e : Int) =
      some ((e + 1 + mid.length + contDrop rest : Nat) : Int) := by
  intro rest
  induction rest with
  | nil =>
      intro raw mid post e f h10 hmid hpne hph hdrop hf
      match f, hf with
      | f+1, _ =>
        rw [kvlmFindEnd_succ]
        have he1 : (e : Int) + 1 = ((e + 1 : Nat) : Int) := by omega
        rw [he1, pyFind_of_drop hdrop hmid]
        have he2 : ((e + 1 + mid.length : Nat) : Int) + 1 =
            ((e + 1 + mid.length + 1 : Nat) : Int) := by omega
        rw [he2]
        have hdrop2 : raw.drop (e + 1 + mid.length + 1) = post := by
          have h1 : e + 1 + mid.length + 1 = (e + 1) + (mid.length + 1) := by omega
          rw [h1, drop_add_of_drop hdrop]
          have h2 : mid ++ 10 :: contAfter [] post = (mid ++ [10]) ++ post := by
            simp [contAfter]
          have h3 : mid.length + 1 = (mid ++ [10]).length := by simp
          rw [h2, h3, List.drop_left]
        rw [pyIndex_of_drop hdrop2]
        match post, hpne with
        | c :: ps, _ =>
          have hc : c ≠ 32 := by
            intro hcc
            exact hph (by rw [hcc]; rfl)
          simp only [List.head?_cons]
          rw [if_pos hc]
          simp [contDrop]
  | cons t ts ih =>
      intro raw mid post e f h10 hmid hpne hph hdrop hf
      match f, hf with
      | f+1, hf =>
        rw [kvlmFindEnd_succ]
        have he1 : (e : Int) + 1 = ((e + 1 : Nat) : Int) := by omega
        rw [he1, pyFind_of_drop hdrop hmid]
        have he2 : ((e + 1 + mid.length : Nat) : Int) + 1 =
            ((e + 1 + mid.length + 1 : Nat) : Int) := by omega
        rw [he2]
        have hdrop2 : raw.drop (e + 1 + mid.length + 1) = contAfter (t :: ts) post := by
          have h1 : e + 1 + mid.length + 1 = (e + 1) + (mid.length + 1) := by omega
          rw [h1, drop_add_of_drop hdrop]
          have h2 : mid ++ 10 :: contAfter (t :: ts) post =
              (mid ++ [10]) ++ contAfter (t :: ts) post := by simp
          have h3 : mid.length + 1 = (mid ++ [10]).length := by simp
          rw [h2, h3, List.drop_left]
        rw [pyIndex_of_drop hdrop2]
        show (match (contAfter (t :: ts) post).head? with
          | none => none
          | some c =>
              if c ≠ 32 then some (((e + 1 + mid.length : Nat) : Int))
              else kvlmFindEnd raw f ((e + 1 + mid.length : Nat) : Int)) = _
        have hhead : (contAfter (t :: ts) post).head? = some 32 := by
          simp [contAfter]
        rw [hhead]
        show (if (32 : Nat) ≠ 32 then some (((e + 1 + mid.length : Nat) : Int))
          else kvlmFindEnd raw f ((e + 1 + mid.length : Nat) : Int)) = _
        rw [if_neg (by simp)]
        have hdrop3 : raw.drop ((e + 1 + mid.length) + 1) = (32 :: t) ++ 10 :: contAfter ts post := by
          have h1 : (e + 1 + mid.length) + 1 = e + 1 + mid.length + 1 := by omega
          rw [h1, hdrop2]
          simp [contAfter]
        have hrec := ih raw (32 :: t) post (e + 1 + mid.length) f
          (fun s hs => h10 s (List.mem_cons_of_mem t hs))
          (by
            intro hc
            rcases List.mem_cons.mp hc with h | h
            · omega
            · exact h10 t (List.mem_cons_self t ts) h)
          hpne hph hdrop3 (by simp at hf; omega)
        rw [hrec]
        congr 1
        simp only [List.length_cons, contDrop]
        omega

theorem renderKvLine_length (k v : Bytes) :
    (renderKvLine k v).length = k.length + 1 + v.length + 1 := by
  simp [renderKvLine]
  omega

theorem kvlmParseGo_line (raw pre k post : Bytes) (segs : List Bytes) (dct : KvlmDict) (f : Nat)
    (hraw : raw = pre ++ (renderKvLine k (foldedVal segs) ++ post))
    (hk : wfKvKey k) (hsegs : segs ≠ []) (h10 : ∀ s ∈ segs, (10 : Nat) ∉ s)
    (hpne : post ≠ []) (hph : post.head? ≠ some 32) :
    kvlmParseGo raw (f+1) (pre.length : Int) dct =
      kvlmParseGo raw f
        ((pre.length + (renderKvLine k (foldedVal segs)).length : Nat) : Int)
        (dctInsert dct k (foldedVal segs)) := by
  obtain ⟨hkne, hk32, hk10⟩ := hk
  match segs, hsegs with
  | seg0 :: rest, _ =>
  match k, hkne, hk32, hk10 with
  | k0 :: kt, _, hk32, hk10 =>
  have hdrop : raw.drop pre.length =
      (k0 :: kt) ++ 32 :: (foldedVal (seg0 :: rest) ++ 10 :: post) := by
    rw [hraw, List.drop_left]
    simp only [renderKvLine, List.append_assoc, List.cons_append, List.singleton_append,
      List.nil_append]
  have hdropA : raw.drop pre.length =
      (k0 :: kt) ++ 32 :: (seg0 ++ 10 :: contAfter rest post) := by
    rw [hdrop, foldedVal_contAfter seg0 rest post]
  have hple : pre.length ≤ raw.length := by
    rw [hraw]; simp
  have hspc : pyFind raw 32 pre.length = ((pre.length + (k0 :: kt).length : Nat) : Int) :=
    pyFind_of_drop hdropA hk32
  have h10mid : (10 : Nat) ∉ ((k0 :: kt) ++ 32 :: seg0) := by
    intro hc
    rcases List.mem_append.mp hc with h | h
    · exact hk10 h
    · rcases List.mem_cons.mp h with h | h
      · omega
      · exact h10 seg0 (List.mem_cons_self _ _) h
  have hdropB : raw.drop pre.length =
      ((k0 :: kt) ++ 32 :: seg0) ++ 10 :: contAfter rest post := by
    rw [hdropA]
    simp [List.append_assoc]
  have hnl : pyFind raw 10 pre.length =
      ((pre.length + ((k0 :: kt).length + 1 + seg0.length) : Nat) : Int) := by
    rw [pyFind_of_drop hdropB h10mid]
    congr 1
    simp only [List.length_append, List.length_cons]
    omega
  rw [kvlmParseGo_succ, hspc, hnl]
  rw [if_neg (by omega : ¬(((pre.length + (k0 :: kt).length : Nat) : Int) < 0 ∨
    ((pre.length + ((k0 :: kt).length + 1 + seg0.length) : Nat) : Int) <
      ((pre.length + (k0 :: kt).length : Nat) : Int)))]
  have hdropC : raw.drop (pre.length + 1) =
      (kt ++ 32 :: seg0) ++ 10 :: contAfter rest post := by
    rw [drop_add_of_drop hdropA]
    simp [List.append_assoc]
  have h10midC : (10 : Nat) ∉ (kt ++ 32 :: seg0) := by
    intro hc
    rcases List.mem_append.mp hc with h | h
    · exact hk10 (List.mem_cons_of_mem k0 h)
    · rcases List.mem_cons.mp h with h | h
      · omega
      · exact h10 seg0 (List.mem_cons_self _ _) h
  have hrawlen : raw.length =
      pre.length + ((renderKvLine (k0 :: kt) (foldedVal (seg0 :: rest))).length + post.length) := by
    rw [hraw]; simp
  have hvlen : (foldedVal (seg0 :: rest)).length ≤ raw.length := by
    rw [hrawlen, renderKvLine_length]; omega
  have hfb : rest.length < 2 * raw.length + 4 := by
    have h1 := contDrop_ge rest
    have h2 := foldedVal_length seg0 rest
    omega
  have hend := kvlmFindEnd_loop rest raw (kt ++ 32 :: seg0) post pre.length
    (2 * raw.length + 4) (fun s hs => h10 s (List.mem_cons_of_mem seg0 hs))
    h10midC hpne hph hdropC hfb
  have hend2 : kvlmFindEnd raw (2 * raw.length + 4) ((pre.length : Nat) : Int) =
      some ((pre.length + (k0 :: kt).length + 1 +
        (foldedVal (seg0 :: rest)).length : Nat) : Int) := by
    rw [hend]
    congr 1
    rw [foldedVal_length]
    simp only [List.length_append, List.length_cons]
    omega
  rw [hend2]
  show kvlmParseGo raw f
      (((pre.length + (k0 :: kt).length + 1 + (foldedVal (seg0 :: rest)).length : Nat) : Int) + 1)
      (dctInsert dct
        (pySlice raw ((pre.length : Nat) : Int) ((pre.length + (k0 :: kt).length : Nat) : Int))
        (replaceNlNl (pySlice raw (((pre.length + (k0 :: kt).length : Nat) : Int) + 1)
          ((pre.length + (k0 :: kt).length + 1 +
            (foldedVal (seg0 :: rest)).length : Nat) : Int)))) = _
  have hkey : pySlice raw ((pre.length : Nat) : Int)
      ((pre.length + (k0 :: kt).length : Nat) : Int) = k0 :: kt :=
    pySlice_of_drop hple (by rw [hdropA])
  have he1 : ((pre.length + (k0 :: kt).length : Nat) : Int) + 1 =
      ((pre.length + (k0 :: kt).length + 1 : Nat) : Int) := by omega
  have hdropD : raw.drop (pre.length + (k0 :: kt).length + 1) =
      foldedVal (seg0 :: rest) ++ 10 :: post := by
    have h1 : pre.length + (k0 :: kt).length + 1 = pre.length + ((k0 :: kt).length + 1) := by
      omega
    rw [h1, drop_add_of_drop hdrop]
    have h2 : (k0 :: kt) ++ 32 :: (foldedVal (seg0 :: rest) ++ 10 :: post) =
        ((k0 :: kt) ++ [32]) ++ (foldedVal (seg0 :: rest) ++ 10 :: post) := by simp
    have h3 : (k0 :: kt).length + 1 = ((k0 :: kt) ++ [32]).length := by simp
    rw [h2, h3, List.drop_left]
  have hplen1 : pre.length + (k0 :: kt).length + 1 ≤ raw.length := by
    rw [hrawlen, renderKvLine_length]; omega
  have hvalue : pySlice raw ((pre.length + (k0 :: kt).length + 1 : Nat) : Int)
      ((pre.length + (k0 :: kt).length + 1 + (foldedVal (seg0 :: rest)).length : Nat) : Int) =
        foldedVal (seg0 :: rest) :=
    pySlice_of_drop hplen1 (by rw [hdropD])
  rw [hkey, he1, hvalue]
  have he2 : ((pre.length + (k0 :: kt).length + 1 +
      (foldedVal (seg0 :: rest)).length : Nat) : Int) + 1 =
      ((pre.length + (renderKvLine (k0 :: kt) (foldedVal (seg0 :: rest))).length : Nat) : Int) := by
    rw [renderKvLine_length]
    omega
  rw [he2]
  rfl

theorem kvlmParseGo_msg (raw pre msg : Bytes) (dct : KvlmDict) (f : Nat)
    (hraw : raw = pre ++ 10 :: msg) :
    kvlmParseGo raw (f+1) (pre.length : Int) dct =
      some (dctSet dct [] (KvlmVal.one msg)) := by
  have hdrop : raw.drop pre.length = 10 :: msg := by
    rw [hraw, List.drop_left]
  have hnl : pyFind raw 10 pre.length = ((pre.length : Nat) : Int) := by
    have hdrop0 : raw.drop pre.length = ([] : Bytes) ++ 10 :: msg := by
      simpa using hdrop
    have h1 := pyFind_of_drop hdrop0 (by simp)
    simpa using h1
  have hslice : pySlice raw (((pre.length : Nat) : Int) + 1) ((raw.length : Nat) : Int) = msg := by
    have he : ((pre.length : Nat) : Int) + 1 = ((pre.length + 1 : Nat) : Int) := by omega
    rw [he, pySlice_to_end]
    rw [drop_add_of_drop hdrop]
    simp
  rw [kvlmParseGo_succ, hnl]
  rcases pyFind_cons_ne hdrop (by omega : (10 : Nat) ≠ 32) with hspc | ⟨j, hspc⟩
  · rw [hspc, if_pos (Or.inl (by omega : (-1 : Int) < 0)), if_pos rfl, hslice]
  · rw [hspc, if_pos (Or.inr (by omega : ((pre.length : Nat) : Int) <
      ((pre.length + 1 + j : Nat) : Int))), if_pos rfl, hslice]

theorem renderKvLines_cons (l : Bytes × List Bytes) (ls : List (Bytes × List Bytes)) :
    renderKvLines (l :: ls) = renderKvLine l.1 (foldedVal l.2) ++ renderKvLines ls := by
  simp [renderKvLines]

theorem renderKvLines_post_ok (ls : List (Bytes × List Bytes)) (msg : Bytes)
    (h : ∀ l ∈ ls, wfKvLine l) :
    (renderKvLines ls ++ 10 :: msg) ≠ [] ∧
      (renderKvLines ls ++ 10 :: msg).head? ≠ some 32 := by
  cases ls with
  | nil =>
      constructor
      · simp [renderKvLines]
      · simp [renderKvLines]
  | cons l ls =>
      obtain ⟨⟨hne, h32, _⟩, _, _⟩ := h l (List.mem_cons_self l ls)
      rw [renderKvLines_cons]
      cases hk1 : l.1 with
      | nil => exact absurd hk1 hne
      | cons k0 kt =>
          have hk0 : k0 ≠ 32 := by
            intro hc
            rw [hk1] at h32
            exact h32 (hc ▸ List.mem_cons_self k0 kt)
          constructor
          · simp [renderKvLine, hk1]
          · simp [renderKvLine, hk1, hk0]

theorem kvlmParseGo_lines : ∀ (ls : List (Bytes × List Bytes)) (pre msg : Bytes)
    (dct : KvlmDict) (f : Nat),
    (∀ l ∈ ls, wfKvLine l) → ls.length < f →
    kvlmParseGo (pre ++ (renderKvLines ls ++ 10 :: msg)) f (pre.length : Int) dct =
      some (dctSet (ls.foldl (fun d l => dctInsert d l.1 (foldedVal l.2)) dct) []
        (KvlmVal.one msg)) := by
  intro ls
  induction ls with
  | nil =>
      intro pre msg dct f _ hf
      match f, hf with
      | f+1, _ =>
        have h0 : renderKvLines ([] : List (Bytes × List Bytes)) = [] := rfl
        rw [h0, List.nil_append, List.foldl_nil]
        exact kvlmParseGo_msg _ pre msg dct f rfl
  | cons l ls ih =>
      intro pre msg dct f hwf hf
      match f, hf with
      | f+1, hf =>
        obtain ⟨hk, hsne, h10⟩ := hwf l (List.mem_cons_self l ls)
        have hpost := renderKvLines_post_ok ls msg (fun x hx => hwf x (List.mem_cons_of_mem l hx))
        rw [renderKvLines_cons, List.append_assoc]
        rw [kvlmParseGo_line _ pre l.1 (renderKvLines ls ++ 10 :: msg) l.2 dct f rfl
          ⟨hk.1, hk.2.1, hk.2.2⟩ hsne h10 hpost.1 hpost.2]
        have hnext := ih (pre ++ renderKvLine l.1 (foldedVal l.2)) msg
          (dctInsert dct l.1 (foldedVal l.2)) f
          (fun x hx => hwf x (List.mem_cons_of_mem l hx)) (by simp at hf ⊢; omega)
        rw [List.append_assoc, List.length_append] at hnext
        rw [List.foldl_cons]
        exact hnext

theorem dctLookup_append_none {d : KvlmDict} {k : Bytes} (h : dctLookup d k = none)
    (l : KvlmDict) : dctLookup (d ++ l) k = dctLookup l k := by
  induction d with
  | nil => simp
  | cons kv rest ih =>
      obtain ⟨k2, v2⟩ := kv
      have h2 : (if k2 = k then some v2 else dctLookup rest k) = none := h
      show (if k2 = k then some v2 else dctLookup (rest ++ l) k) = dctLookup l k
      by_cases hk : k2 = k
      · rw [if_pos hk] at h2
        exact absurd h2 (by simp)
      · rw [if_neg hk] at h2
        rw [if_neg hk]
        exact ih h2

theorem dctSet_of_lookup_none {d : KvlmDict} {k : Bytes} (h : dctLookup d k = none)
    (v : KvlmVal) : dctSet d k v = d ++ [(k, v)] := by
  induction d with
  | nil => simp [dctSet]
  | cons kv rest ih =>
      obtain ⟨k2, v2⟩ := kv
      have h2 : (if k2 = k then some v2 else dctLookup rest k) = none := h
      show (if k2 = k then (k, v) :: rest else (k2, v2) :: dctSet rest k v) =
        ((k2, v2) :: rest) ++ [(k, v)]
      by_cases hk : k2 = k
      · rw [if_pos hk] at h2
        exact absurd h2 (by simp)
      · rw [if_neg hk] at h2
        rw [if_neg hk, ih h2, List.cons_append]

theorem dctSet_append {d : KvlmDict} {k : Bytes} (h : dctLookup d k = none) (x y : KvlmVal) :
    dctSet (d ++ [(k, x)]) k y = d ++ [(k, y)] := by
  induction d with
  | nil => simp [dctSet]
  | cons kv rest ih =>
      obtain ⟨k2, v2⟩ := kv
      have h2 : (if k2 = k then some v2 else dctLookup rest k) = none := h
      show (if k2 = k then (k, y) :: (rest ++ [(k, x)])
          else (k2, v2) :: dctSet (rest ++ [(k, x)]) k y) = ((k2, v2) :: rest) ++ [(k, y)]
      by_cases hk : k2 = k
      · rw [if_pos hk] at h2
        exact absurd h2 (by simp)
      · rw [if_neg hk] at h2
        rw [if_neg hk, ih h2, List.cons_append]

theorem dctInsert_of_lookup_none {d : KvlmDict} {k : Bytes} (h : dctLookup d k = none)
    (v : Bytes) : dctInsert d k v = d ++ [(k, KvlmVal.one v)] := by
  unfold dctInsert
  rw [h]

theorem groupVal_snoc (acc : List Bytes) (hacc : acc ≠ []) (v : Bytes) :
    (match groupVal acc with
      | KvlmVal.one w => KvlmVal.many [w, v]
      | KvlmVal.many ws => KvlmVal.many (ws ++ [v])) = groupVal (acc ++ [v]) := by
  match acc, hacc with
  | [a], _ => rfl
  | a :: b :: t, _ => rfl

theorem dctInsert_snoc {d : KvlmDict} {k : Bytes} (h : dctLookup d k = none)
    {acc : List Bytes} (hacc : acc ≠ []) (v : Bytes) :
    dctInsert (d ++ [(k, groupVal acc)]) k v = d ++ [(k, groupVal (acc ++ [v]))] := by
  have hlu : dctLookup (d ++ [(k, groupVal acc)]) k = some (groupVal acc) := by
    rw [dctLookup_append_none h]
    simp [dctLookup]
  unfold dctInsert
  rw [hlu]
  match acc, hacc with
  | [a], _ =>
      show dctSet (d ++ [(k, groupVal [a])]) k (KvlmVal.many [a, v]) = _
      rw [dctSet_append h]
      rfl
  | a :: b :: t, _ =>
      show dctSet (d ++ [(k, groupVal (a :: b :: t))]) k
        (KvlmVal.many ((a :: b :: t) ++ [v])) = _
      rw [dctSet_append h]
      rfl

theorem fold_insert_run : ∀ (vs : List (List Bytes)) (d : KvlmDict) (k : Bytes)
    (acc : List Bytes), dctLookup d k = none → acc ≠ [] →
    (vs.map (fun segs => (k, segs))).foldl (fun dd l => dctInsert dd l.1 (foldedVal l.2))
      (d ++ [(k, groupVal acc)]) =
    d ++ [(k, groupVal (acc ++ vs.map foldedVal))] := by
  intro vs
  induction vs with
  | nil =>
      intro d k acc h hacc
      simp
  | cons v vs ih =>
      intro d k acc h hacc
      simp only [List.map_cons, List.foldl_cons]
      rw [dctInsert_snoc h hacc (foldedVal v)]
      rw [ih d k (acc ++ [foldedVal v]) h (by simp)]
      simp

theorem groupLines_cons (g : Bytes × List (List Bytes)) (gs : List (Bytes × List (List Bytes))) :
    groupLines (g :: gs) = g.2.map (fun segs => (g.1, segs)) ++ groupLines gs := by
  simp [groupLines]

theorem fold_insert_groups : ∀ (gs : List (Bytes × List (List Bytes))) (d : KvlmDict),
    (∀ g ∈ gs, dctLookup d g.1 = none) →
    (gs.map Prod.fst).Nodup →
    (∀ g ∈ gs, g.2 ≠ []) →
    (groupLines gs).foldl (fun dd l => dctInsert dd l.1 (foldedVal l.2)) d =
      d ++ gs.map (fun g => (g.1, groupVal (g.2.map foldedVal))) := by
  intro gs
  induction gs with
  | nil =>
      intro d _ _ _
      simp [groupLines]
  | cons g gs ih =>
      intro d hlu hnd hne
      rw [groupLines_cons, List.foldl_append]
      cases hg2 : g.2 with
      | nil => exact absurd hg2 (hne g (List.mem_cons_self g gs))
      | cons v vs =>
          simp only [List.map_cons, List.foldl_cons]
          rw [dctInsert_of_lookup_none (hlu g (List.mem_cons_self g gs)) (foldedVal v)]
          rw [show KvlmVal.one (foldedVal v) = groupVal [foldedVal v] from rfl]
          rw [fold_insert_run vs d g.1 [foldedVal v] (hlu g (List.mem_cons_self g gs)) (by simp)]
          have hndc : (g.1 :: gs.map Prod.fst).Nodup := by simpa using hnd
          have hnd2 := List.nodup_cons.mp hndc
          have hlu2 : ∀ g2 ∈ gs, dctLookup
              (d ++ [(g.1, groupVal ([foldedVal v] ++ vs.map foldedVal))]) g2.1 = none := by
            intro g2 hg2mem
            rw [dctLookup_append_none (hlu g2 (List.mem_cons_of_mem g hg2mem))]
            have hneq : g.1 ≠ g2.1 := by
              intro hc
              exact hnd2.1 (hc ▸ List.mem_map.mpr ⟨g2, hg2mem, rfl⟩)
            simp [dctLookup, hneq]
          rw [ih (d ++ [(g.1, groupVal ([foldedVal v] ++ vs.map foldedVal))]) hlu2 hnd2.2
            (fun g2 hg2mem => hne g2 (List.mem_cons_of_mem g hg2mem))]
          simp [hg2]

theorem dctLookup_all_ne {d : KvlmDict} {k : Bytes} (h : ∀ kv ∈ d, kv.1 ≠ k) :
    dctLookup d k = none := by
  induction d with
  | nil => rfl
  | cons kv rest ih =>
      obtain ⟨k2, v2⟩ := kv
      show (if k2 = k then some v2 else dctLookup rest k) = none
      rw [if_neg (h (k2, v2) (List.mem_cons_self _ _))]
      exact ih (fun kv2 hkv => h kv2 (List.mem_cons_of_mem _ hkv))

theorem kvlmHeaderBytes_cons (kv : Bytes × KvlmVal) (d : KvlmDict) :
    kvlmHeaderBytes (kv :: d) =
      (if kv.1 = [] then []
       else match kv.2 with
         | KvlmVal.one v => kv.1 ++ 32 :: (replaceNlNl v ++ [10])
         | KvlmVal.many vs => (vs.map (fun v => kv.1 ++ 32 :: (replaceNlNl v ++ [10]))).flatten)
        ++ kvlmHeaderBytes d := by
  simp [kvlmHeaderBytes]

theorem kvlmGroupDict_cons (g : Bytes × List (List Bytes))
    (gs : List (Bytes × List (List Bytes))) (msg : Bytes) :
    kvlmGroupDict (g :: gs) msg =
      (g.1, groupVal (g.2.map foldedVal)) :: kvlmGroupDict gs msg := by
  simp [kvlmGroupDict]

theorem renderKvLines_append (a b : List (Bytes × List Bytes)) :
    renderKvLines (a ++ b) = renderKvLines a ++ renderKvLines b := by
  simp [renderKvLines]

theorem kvlmHeaderBytes_groupDict : ∀ (gs : List (Bytes × List (List Bytes))) (msg : Bytes),
    (∀ g ∈ gs, g.1 ≠ []) → (∀ g ∈ gs, g.2 ≠ []) →
    kvlmHeaderBytes (kvlmGroupDict gs msg) = renderKvLines (groupLines gs) := by
  intro gs
  induction gs with
  | nil =>
      intro msg _ _
      simp [kvlmGroupDict, kvlmHeaderBytes, groupLines, renderKvLines]
  | cons g gs ih =>
      intro msg hk hne
      rw [kvlmGroupDict_cons, kvlmHeaderBytes_cons, groupLines_cons, renderKvLines_append]
      rw [ih msg (fun g2 hg2 => hk g2 (List.mem_cons_of_mem g hg2))
        (fun g2 hg2 => hne g2 (List.mem_cons_of_mem g hg2))]
      congr 1
      rw [if_neg (hk g (List.mem_cons_self g gs))]
      cases hg2 : g.2 with
      | nil => exact absurd hg2 (hne g (List.mem_cons_self g gs))
      | cons v vs =>
          cases vs with
          | nil => simp [groupVal, renderKvLines, renderKvLine, replaceNlNl]
          | cons w ws =>
              simp [groupVal, renderKvLines, renderKvLine, replaceNlNl, List.map_map]
              rfl

theorem kvlm_serialize_groupDict (gs : List (Bytes × List (List Bytes))) (msg : Bytes)
    (hk : ∀ g ∈ gs, g.1 ≠ []) (hne : ∀ g ∈ gs, g.2 ≠ []) :
    kvlm_serialize (kvlmGroupDict gs msg) = some (renderKvlm (groupLines gs) msg) := by
  unfold kvlm_serialize
  have hlu : dctLookup (kvlmGroupDict gs msg) [] = some (KvlmVal.one msg) := by
    unfold kvlmGroupDict
    rw [dctLookup_append_none (dctLookup_all_ne ?_)]
    · simp [dctLookup]
    · intro kv hkv
      obtain ⟨g, hg, rfl⟩ := List.mem_map.mp hkv
      exact hk g hg
  rw [hlu, kvlmHeaderBytes_groupDict gs msg hk hne]
  rfl

theorem groupLines_mem {gs : List (Bytes × List (List Bytes))} {l : Bytes × List Bytes}
    (hl : l ∈ groupLines gs) : ∃ g ∈ gs, ∃ segs ∈ g.2, l = (g.1, segs) := by
  unfold groupLines at hl
  obtain ⟨x, hx, hlx⟩ := List.mem_flatten.mp hl
  obtain ⟨g, hg, rfl⟩ := List.mem_map.mp hx
  obtain ⟨segs, hs, rfl⟩ := List.mem_map.mp hlx
  exact ⟨g, hg, segs, hs, rfl⟩

theorem renderKvLine_ne_nil (k v : Bytes) : renderKvLine k v ≠ [] := by
  simp [renderKvLine]

theorem length_le_renderKvLines (ls : List (Bytes × List Bytes)) :
    ls.length ≤ (renderKvLines ls).length := by
  induction ls with
  | nil => simp [renderKvLines]
  | cons l ls ih =>
      rw [renderKvLines_cons]
      have h1 := List.length_pos.mpr (renderKvLine_ne_nil l.1 (foldedVal l.2))
      simp only [List.length_append, List.length_cons]
      omega

/-- C2 amended: the KVLM codec round-trips on every well-formed input whose
repeated keys occur in consecutive runs: for grouped headers with pairwise
distinct well-formed keys (each group non-empty, each value a non-empty list
of newline-free folded segments) and an arbitrary message, parsing the
rendered byte string yields exactly the grouped dictionary (no key
reordering, folded lines intact because both `replace` calls are the
identity), and serialising that dictionary reproduces the input bytes. -/
theorem C2_kvlm_roundtrip (gs : List (Bytes × List (List Bytes))) (msg : Bytes)
    (h : wfKvGroups gs) :
    kvlm_parse (renderKvlm (groupLines gs) msg) = some (kvlmGroupDict gs msg) ∧
    kvlm_serialize (kvlmGroupDict gs msg) = some (renderKvlm (groupLines gs) msg) := by
  obtain ⟨hnd, hwf⟩ := h
  have hkeys : ∀ g ∈ gs, g.1 ≠ [] := fun g hg => (hwf g hg).1.1
  have hgne : ∀ g ∈ gs, g.2 ≠ [] := fun g hg => (hwf g hg).2.1
  refine ⟨?_, kvlm_serialize_groupDict gs msg hkeys hgne⟩
  have hlines : ∀ l ∈ groupLines gs, wfKvLine l := by
    intro l hl
    obtain ⟨g, hg, segs, hs, rfl⟩ := groupLines_mem hl
    exact ⟨(hwf g hg).1, ((hwf g hg).2.2 segs hs).1,
      fun s hsseg => ((hwf g hg).2.2 segs hs).2 s hsseg⟩
  have hlen : (groupLines gs).length < (renderKvlm (groupLines gs) msg).length + 1 := by
    have h1 := length_le_renderKvLines (groupLines gs)
    unfold renderKvlm
    simp only [List.length_append, List.length_cons]
    omega
  have hmain := kvlmParseGo_lines (groupLines gs) [] msg []
    ((renderKvlm (groupLines gs) msg).length + 1) hlines hlen
  calc kvlm_parse (renderKvlm (groupLines gs) msg)
      = some (dctSet ((groupLines gs).foldl
          (fun d l => dctInsert d l.1 (foldedVal l.2)) []) [] (KvlmVal.one msg)) := hmain
    _ = some (kvlmGroupDict gs msg) := by
        rw [fold_insert_groups gs [] (fun g _ => rfl) hnd hgne]
        rw [List.nil_append]
        rw [dctSet_of_lookup_none (dctLookup_all_ne ?_) (KvlmVal.one msg)]
        · rfl
        · intro kv hkv
          obtain ⟨g, hg, rfl⟩ := List.mem_map.mp hkv
          exact hkeys g hg

/-- C2 witness: the round-trip at a concrete grouped input with a repeated
`parent` key and a folded `gpgsig` value. -/
theorem C2_kvlm_roundtrip_witness :
    kvlm_parse (renderKvlm (groupLines
      [(strBytes "tree", [[strBytes "29ff16c9"]]),
       (strBytes "parent", [[strBytes "1111"], [strBytes "2222"]]),
       (strBytes "gpgsig", [[strBytes "-----BEGIN", strBytes "abc def"]])])
      (strBytes "hello\nworld\n")) =
      some (kvlmGroupDict
        [(strBytes "tree", [[strBytes "29ff16c9"]]),
         (strBytes "parent", [[strBytes "1111"], [strBytes "2222"]]),
         (strBytes "gpgsig", [[strBytes "-----BEGIN", strBytes "abc def"]])]
        (strBytes "hello\nworld\n")) ∧
    kvlm_serialize (kvlmGroupDict
      [(strBytes "tree", [[strBytes "29ff16c9"]]),
       (strBytes "parent", [[strBytes "1111"], [strBytes "2222"]]),
       (strBytes "gpgsig", [[strBytes "-----BEGIN", strBytes "abc def"]])]
      (strBytes "hello\nworld\n")) =
      some (renderKvlm (groupLines
        [(strBytes "tree", [[strBytes "29ff16c9"]]),
         (strBytes "parent", [[strBytes "1111"], [strBytes "2222"]]),
         (strBytes "gpgsig", [[strBytes "-----BEGIN", strBytes "abc def"]])])
        (strBytes "hello\nworld\n")) :=
  C2_kvlm_roundtrip _ _ (by decide)
